import Mathlib

/-!
A verification development for the overnats repository: a shallow embedding,
in Lean 4, of the pure algorithms and of the control flow of the stateful
operations that the specification's claims are about, together with theorems
settling each claim.

Conventions used throughout:

* JavaScript numbers that the code only ever uses as non-negative integers
  (lengths, revisions, retry counters, millisecond times) are modelled as
  `Nat`; 32-bit arithmetic inside MD5 is `Nat` with explicit `% 2^32`.
* JavaScript exceptions are modelled with `Except`; the distinct error
  classes the code branches on are constructors of a small error type.
* `async`/`await` sequencing is modelled as plain sequential execution: in
  the source every state transition runs under an in-process mutex or is a
  single linear control flow, so a single interleaving-free trace is the
  faithful picture of one operation.
* JavaScript `Record<string, T>` objects are association lists; the helper
  `jsRecord` reproduces object-assignment semantics (first occurrence fixes
  the slot order, the last assignment to a key wins).
* External library functions used by the source (`fast-json-stable-stringify`,
  node's MD5) are modelled concretely and faithfully to their documented
  behaviour: a canonical stringification that sorts object keys at every
  level, and the RFC 1321 MD5 compression function (validated against the
  standard test vectors).
-/

namespace Overnats

/-! ## Generic helpers: JavaScript records and first-match association lists -/

/-- Keys of a JavaScript object built by repeated `obj[key] = v` assignments:
first-occurrence order, duplicates dropped. -/
def firstDedup (seen : List String) : List String → List String
  | [] => []
  | k :: t => if seen.contains k then firstDedup seen t else k :: firstDedup (k :: seen) t

/-- Value stored under `k` after all assignments in `l` ran in order (the last
assignment wins), if any. -/
def lastVal (k : String) (l : List (String × α)) : Option α :=
  l.foldl (fun acc p => if p.1 = k then some p.2 else acc) none

/-- The JavaScript object arising from the assignment sequence `l`:
slot order is first occurrence, the stored value is the last assignment. -/
def jsRecord (l : List (String × α)) : List (String × α) :=
  (firstDedup [] (l.map (·.1))).filterMap fun k => (lastVal k l).map ((k, ·))

/-- First-match lookup in an association list (JavaScript `Map.get`). -/
def lookupKey : List (String × α) → String → Option α
  | [], _ => none
  | p :: t, k => if p.1 = k then some p.2 else lookupKey t k

/-- Remove the first entry with key `k` (JavaScript `Map.delete`). -/
def removeKey : List (String × α) → String → List (String × α)
  | [], _ => []
  | p :: t, k => if p.1 = k then t else p :: removeKey t k

/-! ## `distribute` (src/utils.ts, lines 60-88)

The state is the `list` array of the source: one `(key, shards)` pair per
input instance, in push order; the source's `result` record is `jsRecord`
of it.  `listAt`/`lenAt`/`pushAt` give positional access, matching the
aliasing of the mutable arrays.  The source sorts the candidate array with
the comparator `(a, b) => a.length - b.length`; JavaScript's sort is stable,
which is exactly `List.insertionSort` by `≤` on lengths. -/

def listAt (st : List (String × List String)) (i : Nat) : List String :=
  ((st.get? i).map (·.2)).getD []

def lenAt (st : List (String × List String)) (i : Nat) : Nat :=
  (listAt st i).length

/-- `state[i].push(shard)` on the shared arrays. -/
def pushAt : List (String × List String) → Nat → String → List (String × List String)
  | [], _, _ => []
  | p :: t, 0, s => (p.1, p.2 ++ [s]) :: t
  | p :: t, i + 1, s => p :: pushAt t i s

/-- The inner `for (let i = 0; i < count; i++)` loop of `distribute`: re-sort
the remaining candidates by current length (stable), shift the first, push
the shard onto it.  `fuel` is the remaining iteration count. -/
def innerLoop (shard : String) : List (String × List String) → List Nat → Nat →
    List (String × List String)
  | st, _, 0 => st
  | st, cands, fuel + 1 =>
    match List.insertionSort (fun i j => lenAt st i ≤ lenAt st j) cands with
    | [] => st
    | i :: rest => innerLoop shard (pushAt st i shard) rest fuel

/-- One iteration of the outer `for (const shard of shards)` loop. -/
def distStep (replicas : Nat) (st : List (String × List String)) (shard : String) :
    List (String × List String) :=
  let cands := (List.range st.length).filter fun i => !((listAt st i).contains shard)
  innerLoop shard st cands (min replicas cands.length)

/-- `distribute(instances, shards, replicas)` from src/utils.ts, as the
`list` array with keys; apply `jsRecord` for the returned record. -/
def distribute (instances shards : List String) (replicas : Nat) :
    List (String × List String) :=
  shards.foldl (distStep replicas) (instances.map fun k => (k, []))

/-- Invariant carried through the outer shard loop of `distribute`: the keys
are the input instances in order, every peer's list is duplicate-free and
drawn from the shards processed so far, every processed shard sits in exactly
`min replicas |instances|` peer lists, and all list lengths lie within a
window of width one. -/
def DistInv (replicas : Nat) (instances processed : List String)
    (st : List (String × List String)) : Prop :=
  st.map (·.1) = instances ∧
  (∀ p ∈ st, p.2.Nodup) ∧
  (∀ p ∈ st, ∀ x ∈ p.2, x ∈ processed) ∧
  (∀ s ∈ processed,
    (st.filter fun p => decide (s ∈ p.2)).length = min replicas instances.length) ∧
  (∃ m, ∀ p ∈ st, p.2.length = m ∨ p.2.length = m + 1)

/-! ## JSON values

JSON-representable JavaScript values.  Numbers are modelled as integers
(the code hashes and routes on ordinary JSON payloads; float formatting is
irrelevant to every claim).  `Option Json` models `unknown | undefined`:
`none` is JavaScript `undefined`, `some .null` is JavaScript `null`. -/

mutual

inductive Json where
  | null
  | bool (b : Bool)
  | num (n : Int)
  | str (s : String)
  | arr (items : JsonArr)
  | obj (fields : JsonObj)

inductive JsonArr where
  | nil
  | cons (head : Json) (tail : JsonArr)

inductive JsonObj where
  | nil
  | cons (key : String) (value : Json) (tail : JsonObj)

end

/-- Insert a field into a key-sorted field list (ascending key order, the
default-comparator sort that fast-json-stable-stringify applies). -/
def insertObj (k : String) (v : Json) : JsonObj → JsonObj
  | .nil => .cons k v .nil
  | .cons k' v' t => if k < k' then .cons k v (.cons k' v' t) else .cons k' v' (insertObj k v t)

/-- Sort an object's fields by key. -/
def sortObj : JsonObj → JsonObj
  | .nil => .nil
  | .cons k v t => insertObj k v (sortObj t)

mutual

/-- Canonical form of a JSON value: object keys sorted at every level,
array order untouched.  Two values are deeply equal (key-order-insensitive,
array-order-sensitive) exactly when their canonical forms coincide. -/
def canon : Json → Json
  | .null => .null
  | .bool b => .bool b
  | .num n => .num n
  | .str s => .str s
  | .arr items => .arr (canonArr items)
  | .obj fields => .obj (sortObj (canonObj fields))

def canonArr : JsonArr → JsonArr
  | .nil => .nil
  | .cons h t => .cons (canon h) (canonArr t)

def canonObj : JsonObj → JsonObj
  | .nil => .nil
  | .cons k v t => .cons k (canon v) (canonObj t)

end

/-- Deep value equality of the specification: insensitive to object key
order, sensitive to array element order. -/
def deepEqual (x y : Json) : Prop :=
  canon x = canon y

/-- Deep equality lifted to `unknown | undefined`; `undefined` equals only
itself. -/
def deepEqualU : Option Json → Option Json → Prop
  | none, none => True
  | some x, some y => deepEqual x y
  | _, _ => False

/-- JSON.stringify escaping of one character inside a string literal. -/
def jsonEscapeChar (c : Char) : List Char :=
  if c = '"' then ['\\', '"']
  else if c = '\\' then ['\\', '\\']
  else if c = '\n' then ['\\', 'n']
  else if c = '\r' then ['\\', 'r']
  else if c = '\t' then ['\\', 't']
  else if c.toNat = 8 then ['\\', 'b']
  else if c.toNat = 12 then ['\\', 'f']
  else if c.toNat < 32 then
    ['\\', 'u', '0', '0',
     (if c.toNat / 16 < 10 then Char.ofNat (48 + c.toNat / 16) else Char.ofNat (87 + c.toNat / 16)),
     (if c.toNat % 16 < 10 then Char.ofNat (48 + c.toNat % 16) else Char.ofNat (87 + c.toNat % 16))]
  else [c]

/-- A JSON string literal with quotes and escapes. -/
def jsonQuote (s : String) : String :=
  String.mk ('"' :: s.data.foldr (fun c acc => jsonEscapeChar c ++ acc) ['"'])

mutual

/-- Plain serialization of a JSON value, field order as given. -/
def stringifyRaw : Json → String
  | .null => "null"
  | .bool true => "true"
  | .bool false => "false"
  | .num n => toString n
  | .str s => jsonQuote s
  | .arr items => "[" ++ stringifyRawArr items ++ "]"
  | .obj fields => "\x7b" ++ stringifyRawObj fields ++ "\x7d"

def stringifyRawArr : JsonArr → String
  | .nil => ""
  | .cons h .nil => stringifyRaw h
  | .cons h (.cons h' t) => stringifyRaw h ++ "," ++ stringifyRawArr (.cons h' t)

def stringifyRawObj : JsonObj → String
  | .nil => ""
  | .cons k v .nil => jsonQuote k ++ ":" ++ stringifyRaw v
  | .cons k v (.cons k' v' t) =>
    jsonQuote k ++ ":" ++ stringifyRaw v ++ "," ++ stringifyRawObj (.cons k' v' t)

end

/-- fast-json-stable-stringify: serialize with object keys sorted at every
level, i.e. plain serialization of the canonical form. -/
def stableStringify (j : Json) : String :=
  stringifyRaw (canon j)

/-! ## MD5 (RFC 1321) over `Nat` with explicit 32-bit reduction -/

def M32 : Nat := 4294967296

def rotl32 (x n : Nat) : Nat :=
  ((x <<< n) % M32) ||| (x >>> (32 - n))

def md5K : List Nat :=
  [0xd76aa478, 0xe8c7b756, 0x242070db, 0xc1bdceee,
   0xf57c0faf, 0x4787c62a, 0xa8304613, 0xfd469501,
   0x698098d8, 0x8b44f7af, 0xffff5bb1, 0x895cd7be,
   0x6b901122, 0xfd987193, 0xa679438e, 0x49b40821,
   0xf61e2562, 0xc040b340, 0x265e5a51, 0xe9b6c7aa,
   0xd62f105d, 0x02441453, 0xd8a1e681, 0xe7d3fbc8,
   0x21e1cde6, 0xc33707d6, 0xf4d50d87, 0x455a14ed,
   0xa9e3e905, 0xfcefa3f8, 0x676f02d9, 0x8d2a4c8a,
   0xfffa3942, 0x8771f681, 0x6d9d6122, 0xfde5380c,
   0xa4beea44, 0x4bdecfa9, 0xf6bb4b60, 0xbebfbc70,
   0x289b7ec6, 0xeaa127fa, 0xd4ef3085, 0x04881d05,
   0xd9d4d039, 0xe6db99e5, 0x1fa27cf8, 0xc4ac5665,
   0xf4292244, 0x432aff97, 0xab9423a7, 0xfc93a039,
   0x655b59c3, 0x8f0ccc92, 0xffeff47d, 0x85845dd1,
   0x6fa87e4f, 0xfe2ce6e0, 0xa3014314, 0x4e0811a1,
   0xf7537e82, 0xbd3af235, 0x2ad7d2bb, 0xeb86d391]

def md5S : List Nat :=
  [7, 12, 17, 22, 7, 12, 17, 22, 7, 12, 17, 22, 7, 12, 17, 22,
   5, 9, 14, 20, 5, 9, 14, 20, 5, 9, 14, 20, 5, 9, 14, 20,
   4, 11, 16, 23, 4, 11, 16, 23, 4, 11, 16, 23, 4, 11, 16, 23,
   6, 10, 15, 21, 6, 10, 15, 21, 6, 10, 15, 21, 6, 10, 15, 21]

def md5Step (m : List Nat) (st : Nat × Nat × Nat × Nat) (i : Nat) : Nat × Nat × Nat × Nat :=
  let a := st.1
  let b := st.2.1
  let c := st.2.2.1
  let d := st.2.2.2
  let mask : Nat := 4294967295
  let f :=
    if i < 16 then (b &&& c) ||| ((mask ^^^ b) &&& d)
    else if i < 32 then (d &&& b) ||| ((mask ^^^ d) &&& c)
    else if i < 48 then b ^^^ c ^^^ d
    else c ^^^ (b ||| (mask ^^^ d))
  let g :=
    if i < 16 then i
    else if i < 32 then (5 * i + 1) % 16
    else if i < 48 then (3 * i + 5) % 16
    else (7 * i) % 16
  let tmp := (a + f + (md5K.getD i 0) + (m.getD g 0)) % M32
  let nb := (b + rotl32 tmp (md5S.getD i 0)) % M32
  (d, nb, b, c)

def toWords : List Nat → List Nat
  | b0 :: b1 :: b2 :: b3 :: rest => (b0 + 256 * (b1 + 256 * (b2 + 256 * b3))) :: toWords rest
  | _ => []

def md5Chunk (st : Nat × Nat × Nat × Nat) (chunk : List Nat) : Nat × Nat × Nat × Nat :=
  let m := toWords chunk
  let r := (List.range 64).foldl (md5Step m) st
  ((st.1 + r.1) % M32, (st.2.1 + r.2.1) % M32,
   (st.2.2.1 + r.2.2.1) % M32, (st.2.2.2 + r.2.2.2) % M32)

def leBytes : Nat → Nat → List Nat
  | 0, _ => []
  | count + 1, n => n % 256 :: leBytes count (n / 256)

def md5Pad (msg : List Nat) : List Nat :=
  let len := msg.length
  let zeros := (119 - len % 64) % 64
  msg ++ [128] ++ List.replicate zeros 0 ++ leBytes 8 ((len * 8) % (2 ^ 64))

def chunksGo : Nat → List Nat → List (List Nat)
  | 0, _ => []
  | _ + 1, [] => []
  | fuel + 1, l => l.take 64 :: chunksGo fuel (l.drop 64)

def hexDigit (n : Nat) : Char :=
  if n < 10 then Char.ofNat (48 + n) else Char.ofNat (87 + n)

def byteHex (b : Nat) : List Char :=
  [hexDigit (b / 16 % 16), hexDigit (b % 16)]

def wordHexLE (w : Nat) : List Char :=
  byteHex (w % 256) ++ byteHex (w / 256 % 256) ++
  byteHex (w / 65536 % 256) ++ byteHex (w / 16777216 % 256)

/-- Lowercase hex MD5 digest of a byte sequence (always 32 characters). -/
def md5Hex (msg : List Nat) : String :=
  let padded := md5Pad msg
  let st := (chunksGo padded.length padded).foldl md5Chunk
    (0x67452301, 0xefcdab89, 0x98badcfe, 0x10325476)
  String.mk (wordHexLE st.1 ++ wordHexLE st.2.1 ++ wordHexLE st.2.2.1 ++ wordHexLE st.2.2.2)

/-- UTF-8 encoding of one unicode scalar value. -/
def utf8Char (c : Char) : List Nat :=
  let n := c.toNat
  if n < 128 then [n]
  else if n < 2048 then [192 ||| (n >>> 6), 128 ||| (n &&& 63)]
  else if n < 65536 then [224 ||| (n >>> 12), 128 ||| ((n >>> 6) &&& 63), 128 ||| (n &&& 63)]
  else [240 ||| (n >>> 18), 128 ||| ((n >>> 12) &&& 63),
        128 ||| ((n >>> 6) &&& 63), 128 ||| (n &&& 63)]

def utf8 (s : String) : List Nat :=
  s.data.foldr (fun c acc => utf8Char c ++ acc) []

/-- The all-zero digest returned for `undefined` input. -/
def zeroHash : String := "00000000000000000000000000000000"

def Json.isNull : Json → Bool
  | .null => true
  | _ => false

/-- `hashOf` from src/utils.ts, lines 46-55.  The guard `value == undefined`
uses JavaScript loose equality, which is true for both `undefined` and
`null`; every other value is canonically stringified and MD5-hashed. -/
def hashOf : Option Json → String
  | none => zeroHash
  | some j => if j.isNull then zeroHash else md5Hex (utf8 (stableStringify j))

/-! ## Producer subscribe intake (producer.ts, `init`, subscribe method) -/

/-- Value of one hex digit, as `parseInt(·, 16)` sees lowercase hex. -/
def hexCharVal (c : Char) : Nat :=
  if c.toNat ≤ 57 then c.toNat - 48 else c.toNat - 87

/-- `parseInt(s, 16)` on a lowercase-hex string. -/
def parseHex (s : String) : Nat :=
  s.data.foldl (fun acc c => acc * 16 + hexCharVal c) 0

/-- `s.slice(-n)`: the last `n` characters. -/
def strSliceLast (s : String) (n : Nat) : String :=
  String.mk (s.data.drop (s.data.length - n))

structure SubscribeOutcome where
  hash : String
  shard : String
  recordKey : String
  stream : String
deriving DecidableEq, Repr

/-- The body of the producer's `subscribe` service method: hash the request
parameters, pick the shard from the last 8 hex digits of the hash, write the
subscription record under `subscriptions.<shard>.<hash>` and answer with the
stream name `producer.<name>.<hash>`.  (`shards.getD _ "undefined"` mirrors
the out-of-range JavaScript index yielding `undefined`; every theorem below
assumes a non-empty shard list, as the producer guarantees.) -/
def subscribeHandler (name : String) (shards : List String) (params : Option Json) :
    SubscribeOutcome :=
  let hash := hashOf params
  let shard := shards.getD (parseHex (strSliceLast hash 8) % shards.length) "undefined"
  { hash := hash
    shard := shard
    recordKey := "subscriptions." ++ shard ++ "." ++ hash
    stream := "producer." ++ name ++ "." ++ hash }

/-! ## Request decoding in `Core.call` / `Backend.call`

Both variants run the identical branch on the decoded response; the single
difference between them (request timeout, telemetry) is irrelevant to the
decoded outcome.  Every error thrown inside the `try` is uniformly re-wrapped
as `OvernatsError('request error', {cause})`; the constructors below are the
causes. -/

inductive CallInnerErr where
  | deserialized (raw : Json)
  | invalidResponse

def objHasKey : JsonObj → String → Bool
  | .nil, _ => false
  | .cons k _ t, key => if k = key then true else objHasKey t key

def objGetKey : JsonObj → String → Option Json
  | .nil, _ => none
  | .cons k v t, key => if k = key then some v else objGetKey t key

/-- The response branch of `call`: a decoded object with a `result` field
yields it; with an `error` field, throws the deserialized error; with
neither, returns `undefined`; any non-object (including `null`, numbers,
strings, booleans and an empty payload) throws `Error('invalid response')`.
JavaScript arrays pass the `typeof response == 'object'` test and therefore
also fall through to `undefined`. -/
def callDecode : Option Json → Except CallInnerErr (Option Json)
  | some (.obj fields) =>
    if objHasKey fields "result" then .ok (objGetKey fields "result")
    else if objHasKey fields "error" then
      .error (.deserialized ((objGetKey fields "error").getD .null))
    else .ok none
  | some (.arr _) => .ok none
  | _ => .error .invalidResponse

/-! ## Spawner (src/spawner.ts)

Every public operation runs under the in-process mutex, so a sequence of
operations is a sequence of atomic state transitions.  A child produced by
the user factory is modelled as a fresh identifier taken from a counter;
`alive` is the set of children that have been created and not destroyed (the
claims are conditioned on the operations completing without error, so the
factory and the children's `destroy` are modelled as succeeding).  An item
entry stores the `hashOf` of the value and the child, exactly as the source
stores `{hash, item}`. -/

structure SpState where
  items : List (String × String × Nat)
  nextId : Nat
  alive : List Nat
deriving DecidableEq, Repr

def spInit : SpState := { items := [], nextId := 0, alive := [] }

/-- `_spawnItem` after its existence checks: run the factory (fresh child),
store `{hash, item}` (`Map.set` of a new key appends). -/
def cSpawnRaw (s : SpState) (k h : String) : SpState :=
  { items := s.items ++ [(k, h, s.nextId)], nextId := s.nextId + 1,
    alive := s.alive ++ [s.nextId] }

/-- `_destroyItem`: missing key is a no-op; otherwise destroy the child and
remove the entry. -/
def cDestroyItem (s : SpState) (k : String) : SpState :=
  match lookupKey s.items k with
  | none => s
  | some (_, id) => { items := removeKey s.items k, nextId := s.nextId,
                      alive := s.alive.erase id }

/-- `_maybeRespawnItem`: absent → spawn; same hash → no-op; changed hash →
destroy then spawn. -/
def cMaybeRespawn (s : SpState) (k : String) (v : Option Json) : SpState :=
  let h := hashOf v
  match lookupKey s.items k with
  | some (h', _) => if h = h' then s else cSpawnRaw (cDestroyItem s k) k h
  | none => cSpawnRaw s k h

/-- `resetItems`: respawn every entry of the argument map, then destroy every
key of the original key set not covered by the argument. -/
def cReset (s : SpState) (m : List (String × Option Json)) : SpState :=
  let origKeys := s.items.map (·.1)
  let s1 := m.foldl (fun acc kv => cMaybeRespawn acc kv.1 kv.2) s
  (origKeys.filter fun k => !(m.any fun kv => kv.1 = k)).foldl cDestroyItem s1

/-- `destroy`: destroy every item. -/
def cDestroyAll (s : SpState) : SpState :=
  (s.items.map (·.1)).foldl cDestroyItem s

inductive SpOp where
  | spawn (k : String) (v : Option Json)
  | destroy (k : String)
  | respawn (k : String) (v : Option Json)
  | reset (m : List (String × Option Json))

/-- One public Spawner operation; `spawnItem` on an existing key throws
`OvernatsError('spawner item already exists')`. -/
def cStep (s : SpState) : SpOp → Except Unit SpState
  | .spawn k v =>
    if (lookupKey s.items k).isSome then .error () else .ok (cSpawnRaw s k (hashOf (v)))
  | .destroy k => .ok (cDestroyItem s k)
  | .respawn k v => .ok (cMaybeRespawn s k v)
  | .reset m => .ok (cReset s m)

def cRun : SpState → List SpOp → Except Unit SpState
  | s, [] => .ok s
  | s, op :: rest =>
    match cStep s op with
    | .error e => .error e
    | .ok s' => cRun s' rest

/-- Modelled from the spec: the abstract reference map semantics of the
Spawner (section 4.5 of the spec) — a key/value map where `spawnItem` adds a
new key and fails if the key exists, `destroyItem` removes and is idempotent,
`maybeRespawnItem` replaces only when `hashOf` of the value changed, and
`resetItems` converges the key set to exactly the keys of its argument. -/
def aRespawn (t : List (String × Option Json)) (k : String) (v : Option Json) :
    List (String × Option Json) :=
  match lookupKey t k with
  | some v' => if hashOf v = hashOf v' then t else removeKey t k ++ [(k, v)]
  | none => t ++ [(k, v)]

def aReset (t : List (String × Option Json)) (m : List (String × Option Json)) :
    List (String × Option Json) :=
  let origKeys := t.map (·.1)
  let t1 := m.foldl (fun acc kv => aRespawn acc kv.1 kv.2) t
  (origKeys.filter fun k => !(m.any fun kv => kv.1 = k)).foldl removeKey t1

def aStep (t : List (String × Option Json)) : SpOp → Except Unit (List (String × Option Json))
  | .spawn k v => if (lookupKey t k).isSome then .error () else .ok (t ++ [(k, v)])
  | .destroy k => .ok (removeKey t k)
  | .respawn k v => .ok (aRespawn t k v)
  | .reset m => .ok (aReset t m)

def aRun : List (String × Option Json) → List SpOp → Except Unit (List (String × Option Json))
  | t, [] => .ok t
  | t, op :: rest =>
    match aStep t op with
    | .error e => .error e
    | .ok t' => aRun t' rest

/-- Simulation relation between one concrete item entry and one abstract map
entry: same key, and the stored hash is the hash of the abstract value. -/
abbrev SpEntryRel (e : String × String × Nat) (f : String × Option Json) : Prop :=
  e.1 = f.1 ∧ e.2.1 = hashOf f.2

/-- The concrete Spawner state refines the abstract map entrywise. -/
abbrev SpRel (s : SpState) (t : List (String × Option Json)) : Prop :=
  List.Forall₂ SpEntryRel s.items t

/-- Internal health of the concrete state: the live children are exactly the
stored items' children, child ids are distinct and below the counter, and the
item keys are distinct (a JavaScript `Map`). -/
abbrev SpInv (s : SpState) : Prop :=
  s.alive = s.items.map (·.2.2) ∧ (s.items.map (·.2.2)).Nodup ∧
  (∀ id ∈ s.items.map (·.2.2), id < s.nextId) ∧
  (s.items.map (·.1)).Nodup

abbrev SpOk (s : SpState) (t : List (String × Option Json)) : Prop :=
  SpRel s t ∧ SpInv s

/-! ## Summoner (part_007 / summoner.ts)

Single-slot variant; `compare` is the user-supplied equality, invoked by the
source as `compare(params, this._ghost.params)` — new argument first. -/

structure SumState (α : Type) where
  ghost : Option (α × Nat)
  nextId : Nat
  alive : List Nat
deriving Repr

def sumInit : SumState α := { ghost := none, nextId := 0, alive := [] }

def sumSpawnRaw (s : SumState α) (p : α) : SumState α :=
  { ghost := some (p, s.nextId), nextId := s.nextId + 1, alive := s.alive ++ [s.nextId] }

def sumKillRaw (s : SumState α) : SumState α :=
  match s.ghost with
  | none => s
  | some (_, id) => { ghost := none, nextId := s.nextId, alive := s.alive.erase id }

inductive SumOp (α : Type) where
  | spawn (p : α)
  | kill

/-- `spawn` / `kill` under the internal mutex.  In `_maybeRespawn` the source
tests `this._compare(params, this._ghost.params)`, i.e. the incoming
parameters are the first argument. -/
def sumStep (compare : α → α → Bool) (s : SumState α) : SumOp α → SumState α
  | .spawn p =>
    match s.ghost with
    | none => sumSpawnRaw s p
    | some (cur, _) => if compare p cur then s else sumSpawnRaw (sumKillRaw s) p
  | .kill => sumKillRaw s

def sumRun (compare : α → α → Bool) (ops : List (SumOp α)) : SumState α :=
  ops.foldl (sumStep compare) sumInit

/-- Modelled from the spec: the retained parameters after a sequence of
operations — the most recent `spawn` argument that was not compare-equal to
the then-retained parameters, with `compare` invoked as
`compare(p, current)` (the source's argument order). -/
def retainedParams (compare : α → α → Bool) : Option α → List (SumOp α) → Option α
  | r, [] => r
  | _, .kill :: rest => retainedParams compare none rest
  | r, .spawn p :: rest =>
    retainedParams compare
      (match r with
       | none => some p
       | some c => if compare p c then some c else some p) rest

/-- The claim's reading of the no-op test, `compare(currentParams, p)` —
current parameters first.  Kept separate to compare against the source. -/
def retainedParamsClaim (compare : α → α → Bool) : Option α → List (SumOp α) → Option α
  | r, [] => r
  | _, .kill :: rest => retainedParamsClaim compare none rest
  | r, .spawn p :: rest =>
    retainedParamsClaim compare
      (match r with
       | none => some p
       | some c => if compare c p then some c else some p) rest

/-! ## KV lock control flow (src/bucket.ts `lock`, src/multimutex.ts `MutexCell.lock`)

Both locks share one shape: `retry` around { atomic `create` with a fallback
that converts the wrong-last-sequence error into a private marker error,
then `anyway(callback, cleanup)` where the cleanup is the revision-guarded
`delete` that swallows wrong-last-sequence }.  The retry predicate retries
exactly the marker error; the outer catch converts a final marker error into
an `OvernatsError`.  The differences: `Bucket.lock` uses marker
`Error('oops')`, `retries: 0` and message `'lock failed'`;
`MutexCell.lock` uses `OvernatsMutexLockedError`, the default `retries: 10`
and message `'cannot acquire lock'`.

The model is parametrised by the outcome of each successive `create`,
callback and `delete` call (indexed by how many such calls happened before),
and returns the final result together with the number of calls of each kind.
Back-off delays and abort signals are timing-only and not modelled. -/

inductive Err where
  | wrongLastSequence
  | mutexLocked
  | oops
  | overnats (msg : String)
  | user (n : Nat)
deriving DecidableEq, Repr

deriving instance DecidableEq for Except

structure LockTrace where
  result : Except Err Unit
  creates : Nat
  fCalls : Nat
  deletes : Nat
deriving DecidableEq, Repr

/-- `tryWithFallback` over the `create` call: wrong last sequence becomes the
private marker, other errors propagate. -/
def acquireStep (mark : Err) (cr : Except Err Nat) : Except Err Nat :=
  match cr with
  | .ok r => .ok r
  | .error .wrongLastSequence => .error mark
  | .error e => .error e

/-- The release cleanup: `delete(key, {previousSeq})` with wrong last
sequence swallowed. -/
def releaseStep (dr : Except Err Unit) : Except Err Unit :=
  match dr with
  | .error .wrongLastSequence => .ok ()
  | x => x

/-- `anyway(callback, cleanup)` from src/utils.ts, lines 146-163: the cleanup
runs whether or not the callback threw; an error of the cleanup itself
propagates in preference to the callback's. -/
def anywayModel (callback : Except Err α) (cleanup : Except Err Unit) : Except Err α :=
  match callback with
  | .ok a => match cleanup with | .ok _ => .ok a | .error ce => .error ce
  | .error e => match cleanup with | .ok _ => .error e | .error ce => .error ce

/-- The retried body: `left` is the number of retries still allowed (the
source tests `retry < retries`; `left = retries - retry`), `n`, `fc`, `dc`
count the `create`, callback and `delete` calls already made. -/
def kvLockGo (mark : Err) (cr : Nat → Except Err Nat) (fr : Nat → Except Err Unit)
    (dr : Nat → Except Err Unit) : Nat → Nat → Nat → Nat → LockTrace
  | left, n, fc, dc =>
    match acquireStep mark (cr n) with
    | .error e =>
      match left with
      | 0 => { result := .error e, creates := n + 1, fCalls := fc, deletes := dc }
      | left' + 1 =>
        if e = mark then kvLockGo mark cr fr dr left' (n + 1) fc dc
        else { result := .error e, creates := n + 1, fCalls := fc, deletes := dc }
    | .ok _ =>
      match anywayModel (fr fc) (releaseStep (dr dc)) with
      | .ok _ => { result := .ok (), creates := n + 1, fCalls := fc + 1, deletes := dc + 1 }
      | .error e =>
        match left with
        | 0 => { result := .error e, creates := n + 1, fCalls := fc + 1, deletes := dc + 1 }
        | left' + 1 =>
          if e = mark then kvLockGo mark cr fr dr left' (n + 1) (fc + 1) (dc + 1)
          else { result := .error e, creates := n + 1, fCalls := fc + 1, deletes := dc + 1 }

/-- The outer catch: a final marker error becomes the public
`OvernatsError` with the given message. -/
def kvLockWrap (mark : Err) (msg : String) (t : LockTrace) : LockTrace :=
  match t.result with
  | .error e => if e = mark then { t with result := .error (.overnats msg) } else t
  | .ok _ => t

/-- `MutexCell.lock` (src/multimutex.ts, lines 79-116): marker
`OvernatsMutexLockedError`, default `retries = 10`, final message
`'cannot acquire lock'`. -/
def mutexCellLock (cr : Nat → Except Err Nat) (fr : Nat → Except Err Unit)
    (dr : Nat → Except Err Unit) : LockTrace :=
  kvLockWrap .mutexLocked "cannot acquire lock" (kvLockGo .mutexLocked cr fr dr 10 0 0 0)

/-- `Bucket.lock` (src/bucket.ts, lines 194-233), the path behind
`Backend.globalLock`: marker `Error('oops')`, `retries: 0`, final message
`'lock failed'`. -/
def bucketLock (cr : Nat → Except Err Nat) (fr : Nat → Except Err Unit)
    (dr : Nat → Except Err Unit) : LockTrace :=
  kvLockWrap .oops "lock failed" (kvLockGo .oops cr fr dr 0 0 0 0)

/-! ## Producer `_rebalance` (producer.ts, lines 219-232)

`mutateUsing` is the compare-and-swap loop of src/bucket.ts, lines 119-140:
read the cell, hand the decoded previous value and a guarded `use` to the
callback, retry the whole cycle on a wrong-last-sequence error.  Modelled
here as one uncontended iteration (the CAS succeeds); the callback itself is
the deterministic `_rebalance` body. -/

structure DistRecord where
  shards : List String
  replicas : Nat
  distribution : List (String × List String)
  revision : Nat
  author : String
deriving DecidableEq, Repr

/-- `_rebalance(revision)`: keep the cell when the stored revision is already
at least the incoming one, otherwise write a fresh record computed from the
local crowd keys, authored by this instance. -/
def rebalance (cell : Option DistRecord) (crowd : List String) (shards : List String)
    (replicas : Nat) (inst : String) (revision : Nat) : Option DistRecord :=
  match cell with
  | some value =>
    if value.revision ≥ revision then some value
    else some { shards := shards, replicas := replicas,
                distribution := distribute crowd shards replicas,
                revision := revision, author := inst }
  | none => some { shards := shards, replicas := replicas,
                   distribution := distribute crowd shards replicas,
                   revision := revision, author := inst }

/-! ## Timer (src/timer.ts)

`_schedule` computes `timeout = interval - ((now - started) % interval)` and
`_tick` resets `started` to the fire time before running the callback; the
next `_schedule` runs when the callback completes.  With the timer created at
epoch 0 and ticks firing exactly when scheduled, `timerFire interval dur n`
is the time of the `n`-th tick, where `dur k` is the duration of the `k`-th
callback invocation. -/

def timerFire (interval : Nat) (dur : Nat → Nat) : Nat → Nat
  | 0 => interval - (0 % interval)
  | n + 1 =>
    let prev := timerFire interval dur n
    let done := prev + dur n
    done + (interval - ((done - prev) % interval))

/-! ## Shared lemmas about hashing and deep equality -/

theorem canon_isNull (j : Json) : (canon j).isNull = j.isNull := by
  cases j <;> simp [canon, Json.isNull]

/-- `hashOf` depends only on the canonical form: deeply equal values hash
equal. -/
theorem hash_respects_deepEqualU : ∀ x y : Option Json, deepEqualU x y → hashOf x = hashOf y := by
  intro x y h
  match x, y with
  | none, none => rfl
  | none, some _ => exact absurd h (by simp [deepEqualU])
  | some _, none => exact absurd h (by simp [deepEqualU])
  | some a, some b =>
    have hc : canon a = canon b := h
    have hn : a.isNull = b.isNull := by rw [← canon_isNull a, ← canon_isNull b, hc]
    simp only [hashOf, stableStringify, hn, hc]

/-! ## Claim C9 -/

/-- Claim C9 (confirmed): the Timer's ticks stay aligned to the start epoch
modulo the interval: every fire time `timerFire interval dur n` is a multiple
of `interval` (the next delay being `interval - ((now - started) % interval)`
by definition of `timerFire`), and in particular with `interval = 1000` and
every callback taking 400 ms the ticks are exactly `1000, 2000, 3000, …` —
never `1000, 2400, 3800`. -/
theorem C9_timer_alignment (interval : Nat) (dur : Nat → Nat) (hI : 0 < interval) :
    (∀ n, timerFire interval dur n % interval = 0) ∧
    ((∀ k, dur k = 400) → interval = 1000 → ∀ n, timerFire interval dur n = 1000 * (n + 1)) := by
  constructor
  · intro n
    induction n with
    | zero => simp [timerFire]
    | succ n ih =>
      have h1 := Nat.div_add_mod (dur n) interval
      have h2 : dur n % interval < interval := Nat.mod_lt _ hI
      have h3 : dur n % interval ≤ dur n := Nat.mod_le _ _
      have key : timerFire interval dur (n + 1)
          = timerFire interval dur n + (dur n - dur n % interval) + interval := by
        simp only [timerFire, Nat.add_sub_cancel_left]
        omega
      have h4 : dur n - dur n % interval = interval * (dur n / interval) := by omega
      obtain ⟨c, hc⟩ := Nat.dvd_of_mod_eq_zero ih
      have key2 : timerFire interval dur (n + 1) = interval * (c + dur n / interval + 1) := by
        rw [key, h4, hc]; ring
      rw [key2]
      exact Nat.mul_mod_right _ _
  · intro hdur hint n
    subst hint
    induction n with
    | zero => simp [timerFire]
    | succ n ih =>
      simp only [timerFire, Nat.add_sub_cancel_left, hdur]
      omega

/-- Witness for C9 at `interval = 1000`, constant 400 ms callbacks, tick 2. -/
theorem C9_timer_alignment_witness :
    0 < 1000 ∧ timerFire 1000 (fun _ => 400) 2 = 1000 * (2 + 1) :=
  ⟨by decide, (C9_timer_alignment 1000 (fun _ => 400) (by decide)).2 (fun _ => rfl) rfl 2⟩

/-! ## Claim C10 -/

/-- Claim C10 (confirmed): `Bucket.lock` (the path behind
`Backend.globalLock`) configures its retry loop with `retries: 0`, so when
the initial KV create fails with a wrong-last-sequence error, no further
acquisition attempt happens (`creates = 1`) and the call throws
`OvernatsError('lock failed')`. -/
theorem C10_bucket_lock_no_retry (cr : Nat → Except Err Nat) (fr dr : Nat → Except Err Unit)
    (h : cr 0 = .error .wrongLastSequence) :
    bucketLock cr fr dr
      = { result := .error (.overnats "lock failed"), creates := 1, fCalls := 0, deletes := 0 } := by
  have hA : acquireStep Err.oops (cr 0) = .error .oops := by simp [acquireStep, h]
  unfold bucketLock
  rw [kvLockGo, hA]
  simp [kvLockWrap]

/-- Witness for C10: a create that is already held. -/
theorem C10_bucket_lock_no_retry_witness :
    bucketLock (fun _ => .error .wrongLastSequence) (fun _ => .ok ()) (fun _ => .ok ())
      = { result := .error (.overnats "lock failed"), creates := 1, fCalls := 0, deletes := 0 } :=
  C10_bucket_lock_no_retry _ _ _ rfl

/-! ## Claim C6 -/

/-- One-step equation: a successful acquire followed by a clean
callback-and-release finishes the lock. -/
theorem kvLockGo_ok_done (mark : Err) (cr : Nat → Except Err Nat)
    (fr dr : Nat → Except Err Unit) (left n fc dc rev : Nat)
    (hA : acquireStep mark (cr n) = .ok rev)
    (hB : anywayModel (fr fc) (releaseStep (dr dc)) = .ok ()) :
    kvLockGo mark cr fr dr left n fc dc
      = { result := .ok (), creates := n + 1, fCalls := fc + 1, deletes := dc + 1 } := by
  rw [kvLockGo, hA, hB]

/-- One-step equation: acquire succeeded but the body errored with something
the retry predicate does not match — the error propagates. -/
theorem kvLockGo_ok_err_stop (mark : Err) (cr : Nat → Except Err Nat)
    (fr dr : Nat → Except Err Unit) (left n fc dc rev : Nat) (e : Err)
    (hA : acquireStep mark (cr n) = .ok rev)
    (hB : anywayModel (fr fc) (releaseStep (dr dc)) = .error e) (he : e ≠ mark) :
    kvLockGo mark cr fr dr left n fc dc
      = { result := .error e, creates := n + 1, fCalls := fc + 1, deletes := dc + 1 } := by
  rw [kvLockGo, hA, hB]
  cases left with
  | zero => rfl
  | succ l => simp [he]

/-- One-step equation: acquire succeeded but the body errored with the
marker — retry with one fewer attempt left. -/
theorem kvLockGo_ok_err_retry (mark : Err) (cr : Nat → Except Err Nat)
    (fr dr : Nat → Except Err Unit) (left' n fc dc rev : Nat)
    (hA : acquireStep mark (cr n) = .ok rev)
    (hB : anywayModel (fr fc) (releaseStep (dr dc)) = .error mark) :
    kvLockGo mark cr fr dr (left' + 1) n fc dc
      = kvLockGo mark cr fr dr left' (n + 1) (fc + 1) (dc + 1) := by
  rw [kvLockGo, hA, hB]
  simp

theorem kvLockWrap_deletes (mark : Err) (msg : String) (t : LockTrace) :
    (kvLockWrap mark msg t).deletes = t.deletes := by
  unfold kvLockWrap
  cases ht : t.result with
  | ok u => rfl
  | error e => by_cases h : e = mark <;> simp [h]

theorem kvLockGo_deletes_le (mark : Err) (cr : Nat → Except Err Nat)
    (fr dr : Nat → Except Err Unit) :
    ∀ left n fc dc, dc ≤ (kvLockGo mark cr fr dr left n fc dc).deletes := by
  intro left
  induction left with
  | zero =>
    intro n fc dc
    rw [kvLockGo]
    cases hA : acquireStep mark (cr n) with
    | error e => simp
    | ok r =>
      cases hB : anywayModel (fr fc) (releaseStep (dr dc)) with
      | ok u => simp
      | error e => simp
  | succ left' ih =>
    intro n fc dc
    rw [kvLockGo]
    cases hA : acquireStep mark (cr n) with
    | error e =>
      by_cases he : e = mark
      · have := ih (n + 1) fc dc
        simp [he]
        omega
      · simp [he]
    | ok r =>
      cases hB : anywayModel (fr fc) (releaseStep (dr dc)) with
      | ok u => simp
      | error e =>
        by_cases he : e = mark
        · have := ih (n + 1) (fc + 1) (dc + 1)
          simp [he]
          omega
        · simp [he]

/-- Claim C6 (corrected): for a `MutexCell.lock` invocation whose atomic
create succeeds, the revision-guarded delete runs whether or not the callback
throws — a wrong-last-sequence error from that delete being swallowed by
`releaseStep` — and the callback's error is re-thrown to the caller
*provided it is not itself the internal `OvernatsMutexLockedError`* (which
the retry predicate would instead treat as an acquisition failure and
retry). -/
theorem C6_mutex_release_amended (cr : Nat → Except Err Nat) (fr dr : Nat → Except Err Unit)
    (rev : Nat) (hc : cr 0 = .ok rev) (hd : releaseStep (dr 0) = .ok ()) :
    releaseStep (.error .wrongLastSequence) = .ok () ∧
    1 ≤ (mutexCellLock cr fr dr).deletes ∧
    (fr 0 = .ok () → mutexCellLock cr fr dr
        = { result := .ok (), creates := 1, fCalls := 1, deletes := 1 }) ∧
    (∀ e, fr 0 = .error e → e ≠ .mutexLocked → mutexCellLock cr fr dr
        = { result := .error e, creates := 1, fCalls := 1, deletes := 1 }) := by
  have hstep : acquireStep Err.mutexLocked (cr 0) = .ok rev := by simp [acquireStep, hc]
  refine ⟨rfl, ?_, ?_, ?_⟩
  · unfold mutexCellLock
    rw [kvLockWrap_deletes]
    cases hB : anywayModel (fr 0) (releaseStep (dr 0)) with
    | ok u =>
      cases u
      rw [kvLockGo_ok_done Err.mutexLocked cr fr dr 10 0 0 0 rev hstep hB]
    | error e =>
      by_cases he : e = Err.mutexLocked
      · subst he
        have step : kvLockGo Err.mutexLocked cr fr dr 10 0 0 0
            = kvLockGo Err.mutexLocked cr fr dr 9 (0 + 1) (0 + 1) (0 + 1) :=
          kvLockGo_ok_err_retry Err.mutexLocked cr fr dr 9 0 0 0 rev hstep hB
        rw [step]
        have h1 := kvLockGo_deletes_le Err.mutexLocked cr fr dr 9 (0 + 1) (0 + 1) (0 + 1)
        omega
      · rw [kvLockGo_ok_err_stop Err.mutexLocked cr fr dr 10 0 0 0 rev e hstep hB he]
  · intro hf
    have hB : anywayModel (fr 0) (releaseStep (dr 0)) = .ok () := by
      rw [hf, hd]
      rfl
    unfold mutexCellLock
    rw [kvLockGo_ok_done Err.mutexLocked cr fr dr 10 0 0 0 rev hstep hB]
    rfl
  · intro e hf he
    have hB : anywayModel (fr 0) (releaseStep (dr 0)) = .error e := by
      rw [hf, hd]
      rfl
    unfold mutexCellLock
    rw [kvLockGo_ok_err_stop Err.mutexLocked cr fr dr 10 0 0 0 rev e hstep hB he]
    simp [kvLockWrap, he]

/-- Witness for C6: create succeeds, the callback throws a user error, the
delete succeeds; the trace shows exactly one delete and the user error
re-thrown. -/
theorem C6_mutex_release_amended_witness :
    mutexCellLock (fun _ => .ok 3) (fun _ => .error (.user 7)) (fun _ => .ok ())
      = { result := .error (.user 7), creates := 1, fCalls := 1, deletes := 1 } :=
  (C6_mutex_release_amended (fun _ => .ok 3) (fun _ => .error (.user 7)) (fun _ => .ok ())
    3 rfl rfl).2.2.2 (.user 7) rfl (by decide)

/-- Counterexample to claim C6 as stated: when the callback itself throws
`OvernatsMutexLockedError`, the error is *not* re-thrown — the retry
predicate matches it, the lock is re-acquired and the callback runs a second
time (here succeeding), so the caller sees success, two callback invocations
and two deletes. -/
theorem C6_mutex_counterexample :
    mutexCellLock (fun _ => .ok 1) (fun i => if i = 0 then .error .mutexLocked else .ok ())
      (fun _ => .ok ())
      = { result := .ok (), creates := 2, fCalls := 2, deletes := 2 } := by decide

/-! ## Claim C7 -/

/-- Counterexample to claim C7 as stated: a decoded object with neither a
`result` nor an `error` field makes `call` return `undefined` — it does not
throw a protocol error. -/
theorem C7_call_counterexample :
    callDecode (some (.obj .nil)) = .ok none
      ∧ callDecode (some (.obj .nil)) ≠ .error .invalidResponse := by
  refine ⟨rfl, ?_⟩
  intro h
  simp [callDecode, objHasKey] at h

/-- Claim C7 (corrected): an object (or array) response with neither field
decodes to `undefined`, which `call` returns as the result; the
`invalid response` protocol error is raised only when the decoded response is
not an object — `undefined` (empty payload), `null`, booleans, numbers and
strings. -/
theorem C7_call_decode_amended :
    (∀ fields : JsonObj, objHasKey fields "result" = false → objHasKey fields "error" = false →
      callDecode (some (.obj fields)) = .ok none) ∧
    callDecode none = .error .invalidResponse ∧
    callDecode (some .null) = .error .invalidResponse ∧
    (∀ b, callDecode (some (.bool b)) = .error .invalidResponse) ∧
    (∀ n, callDecode (some (.num n)) = .error .invalidResponse) ∧
    (∀ s, callDecode (some (.str s)) = .error .invalidResponse) := by
  refine ⟨?_, rfl, rfl, fun b => rfl, fun n => rfl, fun s => rfl⟩
  intro fields h1 h2
  simp [callDecode, h1, h2]

/-- Witness for C7 at the empty object. -/
theorem C7_call_decode_amended_witness :
    objHasKey .nil "result" = false ∧ callDecode (some (.obj .nil)) = .ok none :=
  ⟨rfl, C7_call_decode_amended.1 .nil rfl rfl⟩

/-! ## Claim C8 -/

/-- Counterexample to claim C8 as stated: `undefined` and `null` are not
deeply equal JSON values, yet both take the `value == undefined` guard (loose
equality) and hash to the all-zero string. -/
theorem C8_hash_counterexample :
    hashOf none = hashOf (some .null) ∧ ¬ deepEqualU none (some .null) :=
  ⟨rfl, fun h => h⟩

/-- Claim C8 (corrected): the sound direction holds — deeply equal values
(key-order-insensitive, array-order-sensitive) always receive the same hash,
because `hashOf` only looks at the canonical stringification; the converse
fails (`undefined`/`null` collide on the all-zero digest, and the 128-bit
digest forces further collisions). -/
theorem C8_hash_deep_equality_amended (x y : Option Json) (h : deepEqualU x y) :
    hashOf x = hashOf y :=
  hash_respects_deepEqualU x y h

/-- Witness for C8: two objects with the same fields in different key order.
-/
theorem C8_hash_deep_equality_amended_witness :
    hashOf (some (.obj (.cons "a" .null (.cons "b" (.num 2) .nil))))
      = hashOf (some (.obj (.cons "b" (.num 2) (.cons "a" .null .nil)))) :=
  C8_hash_deep_equality_amended _ _ (by
    have hab : ("a" : String) < "b" := by
      rw [String.lt_iff_toList_lt]; decide
    have hba : ¬ ("b" : String) < "a" := by
      rw [String.lt_iff_toList_lt]; decide
    show canon _ = canon _
    simp [canon, canonObj, sortObj, insertObj, hab, hba])

/-! ## Claim C2 -/

/-- Claim C2 (confirmed): `_rebalance(rev)` leaves the distribution cell
unchanged when the stored revision is already `≥ rev`, and otherwise writes a
record with `revision = rev`, `author` the calling peer's instance id and
`distribution = distribute(crowd keys, shards, replicas)`; consequently the
stored revision never decreases. -/
theorem C2_rebalance_spec (cell : Option DistRecord) (crowd shards : List String)
    (replicas : Nat) (inst : String) (rev : Nat) :
    (∀ v, cell = some v → rev ≤ v.revision →
      rebalance cell crowd shards replicas inst rev = some v) ∧
    (∀ v, cell = some v → v.revision < rev →
      rebalance cell crowd shards replicas inst rev
        = some { shards := shards, replicas := replicas,
                 distribution := distribute crowd shards replicas,
                 revision := rev, author := inst }) ∧
    (cell = none → rebalance cell crowd shards replicas inst rev
        = some { shards := shards, replicas := replicas,
                 distribution := distribute crowd shards replicas,
                 revision := rev, author := inst }) ∧
    (∀ v w, cell = some v → rebalance cell crowd shards replicas inst rev = some w →
      v.revision ≤ w.revision) := by
  refine ⟨?_, ?_, ?_, ?_⟩
  · intro v hv h
    subst hv
    simp [rebalance, h]
  · intro v hv h
    subst hv
    simp [rebalance, Nat.not_le.mpr h]
  · intro h
    subst h
    simp [rebalance]
  · intro v w hv hw
    subst hv
    by_cases h : rev ≤ v.revision
    · simp [rebalance, h] at hw
      subst hw
      exact le_refl _
    · simp [rebalance, h] at hw
      subst hw
      simp
      omega

/-- Witness for C2: a stored record at revision 5 is overwritten by a
rebalance at revision 7 with the freshly computed distribution. -/
theorem C2_rebalance_spec_witness :
    rebalance (some { shards := ["s"], replicas := 2, distribution := [],
                      revision := 5, author := "peer0" }) ["p", "q"] ["s"] 2 "me" 7
      = some { shards := ["s"], replicas := 2,
               distribution := distribute ["p", "q"] ["s"] 2,
               revision := 7, author := "me" } :=
  (C2_rebalance_spec _ ["p", "q"] ["s"] 2 "me" 7).2.1 _ rfl (by decide)

/-! ## Claim C5 -/

theorem sumRun_aux {α : Type} (compare : α → α → Bool) :
    ∀ (ops : List (SumOp α)) (s : SumState α),
      s.alive = (match s.ghost with | none => [] | some (_, id) => [id]) →
      (ops.foldl (sumStep compare) s).alive
        = (match (ops.foldl (sumStep compare) s).ghost with
           | none => [] | some (_, id) => [id]) ∧
      (ops.foldl (sumStep compare) s).ghost.map (·.1)
        = retainedParams compare (s.ghost.map (·.1)) ops := by
  intro ops
  induction ops with
  | nil => exact fun s hs => ⟨hs, rfl⟩
  | cons op rest ih =>
    intro s hs
    rw [List.foldl_cons]
    cases op with
    | kill =>
      cases hg : s.ghost with
      | none =>
        have hst : sumStep compare s .kill = s := by
          simp [sumStep, sumKillRaw, hg]
        rw [hst]
        have h2 := ih s hs
        refine ⟨h2.1, ?_⟩
        rw [h2.2]
        simp [retainedParams, hg]
      | some pr =>
        obtain ⟨pv, pid⟩ := pr
        have halive : s.alive = [pid] := by rw [hs, hg]
        have hst : sumStep compare s .kill
            = { ghost := none, nextId := s.nextId, alive := [] } := by
          simp [sumStep, sumKillRaw, hg, halive]
        rw [hst]
        have h2 := ih { ghost := none, nextId := s.nextId, alive := [] } rfl
        refine ⟨h2.1, ?_⟩
        rw [h2.2]
        simp [retainedParams]
    | spawn p =>
      cases hg : s.ghost with
      | none =>
        have halive : s.alive = [] := by rw [hs, hg]
        have hst : sumStep compare s (.spawn p)
            = { ghost := some (p, s.nextId), nextId := s.nextId + 1,
                alive := [s.nextId] } := by
          simp [sumStep, sumSpawnRaw, hg, halive]
        rw [hst]
        have h2 := ih { ghost := some (p, s.nextId), nextId := s.nextId + 1,
                        alive := [s.nextId] } rfl
        refine ⟨h2.1, ?_⟩
        rw [h2.2]
        simp [retainedParams, hg]
      | some pr =>
        obtain ⟨pv, pid⟩ := pr
        by_cases hcmp : compare p pv
        · have hst : sumStep compare s (.spawn p) = s := by
            simp [sumStep, hg, hcmp]
          rw [hst]
          have h2 := ih s hs
          refine ⟨h2.1, ?_⟩
          rw [h2.2]
          simp [retainedParams, hg, hcmp]
        · have halive : s.alive = [pid] := by rw [hs, hg]
          have hst : sumStep compare s (.spawn p)
              = { ghost := some (p, s.nextId), nextId := s.nextId + 1,
                  alive := [s.nextId] } := by
            simp [sumStep, sumSpawnRaw, sumKillRaw, hg, hcmp, halive]
          rw [hst]
          have h2 := ih { ghost := some (p, s.nextId), nextId := s.nextId + 1,
                          alive := [s.nextId] } rfl
          refine ⟨h2.1, ?_⟩
          rw [h2.2]
          simp [retainedParams, hg, hcmp]

/-- Claim C5 (corrected): the Summoner holds at most one live child at all
times (`alive` is exactly the current ghost's child), and the retained
parameters are the most recent spawn argument that was not compare-equal to
the then-current parameters — but the source invokes the user comparison as
`compare(p, currentParams)` (incoming argument first), not
`compare(currentParams, p)` as the claim states. -/
theorem C5_summoner_amended {α : Type} (compare : α → α → Bool) (ops : List (SumOp α)) :
    (sumRun compare ops).alive.length ≤ 1 ∧
    (sumRun compare ops).ghost.map (·.1) = retainedParams compare none ops ∧
    (sumRun compare ops).alive
      = (match (sumRun compare ops).ghost with | none => [] | some (_, id) => [id]) := by
  have h := sumRun_aux compare ops sumInit rfl
  unfold sumRun
  refine ⟨?_, h.2, h.1⟩
  rw [h.1]
  cases hg : (List.foldl (sumStep compare) sumInit ops).ghost with
  | none => simp
  | some pr => simp

/-- Counterexample to claim C5 as stated: with the asymmetric comparison
`compare a b = (a ≤ b)` and the spawns `1, 2`, the code computes
`compare(2, 1) = false` and respawns (retaining `2`), while the claim's
reading `compare(current, p) = compare(1, 2) = true` predicts a no-op
(retaining `1`). -/
theorem C5_summoner_counterexample :
    (sumRun (fun a b : Nat => decide (a ≤ b)) [.spawn 1, .spawn 2]).ghost.map (·.1) = some 2 ∧
    retainedParamsClaim (fun a b : Nat => decide (a ≤ b)) none [.spawn 1, .spawn 2] = some 1 := by
  decide

/-! ## Claim C3 -/

set_option maxRecDepth 100000 in
/-- Counterexample to claim C3 as stated: for `params = null` the handler's
hash is the all-zero guard string, not the MD5 of the canonical JSON of the
parameters (`md5("null") = 37a6259c…`). -/
theorem C3_subscribe_counterexample :
    (subscribeHandler "p1" ["a", "b"] (some .null)).hash = zeroHash ∧
    md5Hex (utf8 (stableStringify .null)) ≠ zeroHash := by
  constructor
  · rfl
  · have h : stableStringify .null = "null" := by simp [stableStringify, canon, stringifyRaw]
    rw [h]
    decide

/-- Claim C3 (corrected): the subscribe handler computes
`hash = hashOf(params)` — the MD5 of the canonical JSON for parameters other
than `null`/`undefined`, the fixed all-zero string for those — picks
`shard = shards[parseInt(hash.slice(-8), 16) % shards.length]` (an element
of the shard list), writes the record under `subscriptions.<shard>.<hash>`,
returns stream `producer.<name>.<hash>`, and deeply equal parameters receive
the same stream and shard. -/
theorem C3_subscribe_amended (name : String) (shards : List String) (p q : Option Json)
    (hs : shards ≠ []) :
    (subscribeHandler name shards p).hash = hashOf p ∧
    (∀ j : Json, j.isNull = false → hashOf (some j) = md5Hex (utf8 (stableStringify j))) ∧
    (subscribeHandler name shards p).shard
      = shards.getD (parseHex (strSliceLast (hashOf p) 8) % shards.length) "undefined" ∧
    (subscribeHandler name shards p).shard ∈ shards ∧
    (subscribeHandler name shards p).recordKey
      = "subscriptions." ++ (subscribeHandler name shards p).shard ++ "." ++ hashOf p ∧
    (subscribeHandler name shards p).stream = "producer." ++ name ++ "." ++ hashOf p ∧
    (deepEqualU p q → subscribeHandler name shards p = subscribeHandler name shards q) := by
  refine ⟨rfl, ?_, rfl, ?_, rfl, rfl, ?_⟩
  · intro j hj
    simp [hashOf, hj]
  · have hlen : 0 < shards.length := List.length_pos.mpr hs
    have hidx : parseHex (strSliceLast (hashOf p) 8) % shards.length < shards.length :=
      Nat.mod_lt _ hlen
    show shards.getD (parseHex (strSliceLast (hashOf p) 8) % shards.length) "undefined" ∈ shards
    rw [List.getD_eq_getElem?_getD, List.getElem?_eq_getElem hidx, Option.getD_some]
    exact List.getElem_mem hidx
  · intro h
    have hh := hash_respects_deepEqualU p q h
    simp [subscribeHandler, hh]

/-- Witness for C3 on a two-shard producer. -/
theorem C3_subscribe_amended_witness :
    (["a", "b"] : List String) ≠ [] ∧
    (subscribeHandler "p1" ["a", "b"] none).shard ∈ ["a", "b"] :=
  ⟨by decide, (C3_subscribe_amended "p1" ["a", "b"] none none (by decide)).2.2.2.1⟩

/-! ## Claim C4 -/

theorem rel_lookup {l : List (String × String × Nat)} {t : List (String × Option Json)}
    (h : List.Forall₂ SpEntryRel l t) (k : String) :
    (lookupKey l k = none ∧ lookupKey t k = none) ∨
    (∃ hsh id v, lookupKey l k = some (hsh, id) ∧ lookupKey t k = some v ∧ hsh = hashOf v) := by
  induction h with
  | nil => exact .inl ⟨rfl, rfl⟩
  | @cons e f l' t' hef htail ih =>
    by_cases hk : e.1 = k
    · right
      refine ⟨e.2.1, e.2.2, f.2, ?_, ?_, hef.2⟩
      · simp [lookupKey, hk]
      · have : f.1 = k := hef.1 ▸ hk
        simp [lookupKey, this]
    · have hk2 : ¬ f.1 = k := fun hf => hk (hef.1 ▸ hf)
      rcases ih with ⟨h1, h2⟩ | ⟨hsh, id, v, h1, h2, h3⟩
      · exact .inl ⟨by simp [lookupKey, hk, h1], by simp [lookupKey, hk2, h2]⟩
      · exact .inr ⟨hsh, id, v, by simp [lookupKey, hk, h1], by simp [lookupKey, hk2, h2], h3⟩

theorem rel_remove {l : List (String × String × Nat)} {t : List (String × Option Json)}
    (h : List.Forall₂ SpEntryRel l t) (k : String) :
    List.Forall₂ SpEntryRel (removeKey l k) (removeKey t k) := by
  induction h with
  | nil => simp [removeKey]
  | @cons e f l' t' hef htail ih =>
    by_cases hk : e.1 = k
    · have hk2 : f.1 = k := hef.1 ▸ hk
      simpa [removeKey, hk, hk2] using htail
    · have hk2 : ¬ f.1 = k := fun hf => hk (hef.1 ▸ hf)
      simpa [removeKey, hk, hk2] using List.Forall₂.cons hef ih

theorem lookup_none_remove {t : List (String × α)} {k : String}
    (h : lookupKey t k = none) : removeKey t k = t := by
  induction t with
  | nil => rfl
  | cons f t' ih =>
    by_cases hk : f.1 = k
    · simp [lookupKey, hk] at h
    · simp [lookupKey, hk] at h
      simp [removeKey, hk, ih h]

theorem rel_keys_eq {l : List (String × String × Nat)} {t : List (String × Option Json)}
    (h : List.Forall₂ SpEntryRel l t) : l.map (·.1) = t.map (·.1) := by
  induction h with
  | nil => rfl
  | @cons e f l' t' hef htail ih => simp [hef.1, ih]

theorem removeKey_ids_sublist (l : List (String × String × Nat)) (k : String) :
    List.Sublist ((removeKey l k).map (·.2.2)) (l.map (·.2.2)) := by
  induction l with
  | nil => simp [removeKey]
  | cons e l' ih =>
    by_cases hk : e.1 = k
    · simp [removeKey, hk]
    · simp [removeKey, hk]
      exact ih

theorem lookup_id_mem {l : List (String × String × Nat)} {k hsh : String} {id : Nat}
    (h : lookupKey l k = some (hsh, id)) : id ∈ l.map (·.2.2) := by
  induction l with
  | nil => simp [lookupKey] at h
  | cons e l' ih =>
    by_cases hk : e.1 = k
    · simp [lookupKey, hk] at h
      simp [h]
    · simp [lookupKey, hk] at h
      simp [ih h]

theorem alive_erase_eq {l : List (String × String × Nat)} {k hsh : String} {id : Nat}
    (hnd : (l.map (·.2.2)).Nodup) (hl : lookupKey l k = some (hsh, id)) :
    (l.map (·.2.2)).erase id = (removeKey l k).map (·.2.2) := by
  induction l with
  | nil => simp [lookupKey] at hl
  | cons e l' ih =>
    by_cases hk : e.1 = k
    · simp [lookupKey, hk] at hl
      simp [removeKey, hk, hl, List.erase_cons_head]
    · simp [lookupKey, hk] at hl
      have hmem : id ∈ l'.map (·.2.2) := lookup_id_mem hl
      have hne : e.2.2 ≠ id := by
        intro he
        exact (List.nodup_cons.mp (by simpa using hnd)).1 (he ▸ hmem)
      have hnd' : (l'.map (·.2.2)).Nodup := (List.nodup_cons.mp (by simpa using hnd)).2
      simp [removeKey, hk, List.erase_cons, hne, ih hnd' hl]

theorem lookup_none_iff_keys {l : List (String × α)} {k : String} :
    lookupKey l k = none ↔ k ∉ l.map (·.1) := by
  induction l with
  | nil => simp [lookupKey]
  | cons e t ih =>
    by_cases hk : e.1 = k
    · simp [lookupKey, hk]
    · rw [lookupKey, if_neg hk, ih]
      simp only [List.map_cons, List.mem_cons, not_or]
      exact ⟨fun h => ⟨fun hx => hk hx.symm, h⟩, fun h => h.2⟩

theorem removeKey_map_fst (l : List (String × α)) (k : String) :
    (removeKey l k).map (·.1) = (l.map (·.1)).erase k := by
  induction l with
  | nil => rfl
  | cons e t ih =>
    by_cases hk : e.1 = k
    · simp [removeKey, hk, List.erase_cons_head]
    · simp [removeKey, hk, List.erase_cons, ih]

theorem lookup_removeKey_self {l : List (String × α)} {k : String}
    (h : (l.map (·.1)).Nodup) : lookupKey (removeKey l k) k = none := by
  rw [lookup_none_iff_keys, removeKey_map_fst]
  intro hmem
  exact ((List.Nodup.mem_erase_iff h).mp hmem).1 rfl

theorem ok_spawnRaw {s : SpState} {t : List (String × Option Json)} (h : SpOk s t)
    (k : String) (v : Option Json) (hnone : lookupKey s.items k = none) :
    SpOk (cSpawnRaw s k (hashOf v)) (t ++ [(k, v)]) := by
  obtain ⟨hrel, halive, hnd, hbound, hknd⟩ := h
  refine ⟨?_, ?_, ?_, ?_, ?_⟩
  · exact List.rel_append hrel (List.Forall₂.cons ⟨rfl, rfl⟩ List.Forall₂.nil)
  · show s.alive ++ [s.nextId] = (s.items ++ [(k, hashOf v, s.nextId)]).map (·.2.2)
    rw [List.map_append, halive]
    rfl
  · show ((s.items ++ [(k, hashOf v, s.nextId)]).map (·.2.2)).Nodup
    rw [List.map_append]
    refine List.Nodup.append hnd (List.nodup_singleton _) ?_
    intro a ha hb
    simp at hb
    subst hb
    exact absurd (hbound _ ha) (by omega)
  · show ∀ id ∈ (s.items ++ [(k, hashOf v, s.nextId)]).map (·.2.2), id < s.nextId + 1
    intro id hid
    rw [List.map_append, List.mem_append] at hid
    rcases hid with hid | hid
    · exact Nat.lt_succ_of_lt (hbound _ hid)
    · simp at hid
      omega
  · show ((s.items ++ [(k, hashOf v, s.nextId)]).map (·.1)).Nodup
    rw [List.map_append]
    refine List.Nodup.append hknd (List.nodup_singleton _) ?_
    intro a ha hb
    simp at hb
    subst hb
    exact lookup_none_iff_keys.mp hnone ha

theorem ok_destroy {s : SpState} {t : List (String × Option Json)} (h : SpOk s t)
    (k : String) : SpOk (cDestroyItem s k) (removeKey t k) := by
  obtain ⟨hrel, halive, hnd, hbound, hknd⟩ := h
  rcases rel_lookup hrel k with ⟨h1, h2⟩ | ⟨hsh, id, v, h1, h2, h3⟩
  · rw [lookup_none_remove h2]
    have hC : cDestroyItem s k = s := by simp [cDestroyItem, h1]
    rw [hC]
    exact ⟨hrel, halive, hnd, hbound, hknd⟩
  · have hC : cDestroyItem s k
        = { items := removeKey s.items k, nextId := s.nextId,
            alive := s.alive.erase id } := by
      simp [cDestroyItem, h1]
    rw [hC]
    refine ⟨?_, ?_, ?_, ?_, ?_⟩
    · exact rel_remove hrel k
    · show s.alive.erase id = (removeKey s.items k).map (·.2.2)
      rw [halive]
      exact alive_erase_eq hnd h1
    · exact hnd.sublist (removeKey_ids_sublist s.items k)
    · intro i hi
      exact hbound _ ((removeKey_ids_sublist s.items k).subset hi)
    · show ((removeKey s.items k).map (·.1)).Nodup
      rw [removeKey_map_fst]
      exact hknd.erase k

theorem ok_respawn {s : SpState} {t : List (String × Option Json)} (h : SpOk s t)
    (k : String) (v : Option Json) : SpOk (cMaybeRespawn s k v) (aRespawn t k v) := by
  rcases rel_lookup h.1 k with ⟨h1, h2⟩ | ⟨hsh, id, v', h1, h2, h3⟩
  · simpa [cMaybeRespawn, aRespawn, h1, h2] using ok_spawnRaw h k v h1
  · by_cases heq : hashOf v = hsh
    · have heq' : hashOf v = hashOf v' := heq.trans h3
      simpa [cMaybeRespawn, aRespawn, h1, h2, heq, heq', h3] using h
    · have heq' : ¬ hashOf v = hashOf v' := fun hx => heq (hx.trans h3.symm)
      have hknd : (s.items.map (·.1)).Nodup := h.2.2.2.2
      have hnone2 : lookupKey (cDestroyItem s k).items k = none := by
        have hC : cDestroyItem s k
            = { items := removeKey s.items k, nextId := s.nextId,
                alive := s.alive.erase id } := by
          simp [cDestroyItem, h1]
        rw [hC]
        exact lookup_removeKey_self hknd
      simpa [cMaybeRespawn, aRespawn, h1, h2, heq, heq', h3] using
        ok_spawnRaw (ok_destroy h k) k v hnone2

theorem ok_fold_respawn {s : SpState} {t : List (String × Option Json)} (h : SpOk s t)
    (m : List (String × Option Json)) :
    SpOk (m.foldl (fun acc kv => cMaybeRespawn acc kv.1 kv.2) s)
      (m.foldl (fun acc kv => aRespawn acc kv.1 kv.2) t) := by
  induction m generalizing s t with
  | nil => exact h
  | cons kv m' ih => exact ih (ok_respawn h kv.1 kv.2)

theorem ok_fold_destroy {s : SpState} {t : List (String × Option Json)} (h : SpOk s t)
    (L : List String) :
    SpOk (L.foldl cDestroyItem s) (L.foldl removeKey t) := by
  induction L generalizing s t with
  | nil => exact h
  | cons k L' ih => exact ih (ok_destroy h k)

theorem ok_reset {s : SpState} {t : List (String × Option Json)} (h : SpOk s t)
    (m : List (String × Option Json)) : SpOk (cReset s m) (aReset t m) := by
  have hkeys := rel_keys_eq h.1
  unfold cReset aReset
  rw [hkeys]
  exact ok_fold_destroy (ok_fold_respawn h m) _

theorem ok_cstep {s : SpState} {t : List (String × Option Json)} (h : SpOk s t)
    (op : SpOp) :
    (cStep s op = .error () ∧ aStep t op = .error ()) ∨
    (∃ s' t', cStep s op = .ok s' ∧ aStep t op = .ok t' ∧ SpOk s' t') := by
  cases op with
  | spawn k v =>
    rcases rel_lookup h.1 k with ⟨h1, h2⟩ | ⟨hsh, id, v', h1, h2, h3⟩
    · exact .inr ⟨cSpawnRaw s k (hashOf v), t ++ [(k, v)],
        by simp [cStep, h1], by simp [aStep, h2], ok_spawnRaw h k v h1⟩
    · exact .inl ⟨by simp [cStep, h1], by simp [aStep, h2]⟩
  | destroy k => exact .inr ⟨_, _, rfl, rfl, ok_destroy h k⟩
  | respawn k v => exact .inr ⟨_, _, rfl, rfl, ok_respawn h k v⟩
  | reset m => exact .inr ⟨_, _, rfl, rfl, ok_reset h m⟩

theorem ok_run {s : SpState} {t : List (String × Option Json)} (h : SpOk s t)
    (ops : List SpOp) :
    (cRun s ops = .error () ∧ aRun t ops = .error ()) ∨
    (∃ s' t', cRun s ops = .ok s' ∧ aRun t ops = .ok t' ∧ SpOk s' t') := by
  induction ops generalizing s t with
  | nil => exact .inr ⟨s, t, rfl, rfl, h⟩
  | cons op rest ih =>
    rcases ok_cstep h op with ⟨h1, h2⟩ | ⟨s', t', h1, h2, hok⟩
    · exact .inl ⟨by simp [cRun, h1], by simp [aRun, h2]⟩
    · rcases ih hok with ⟨h3, h4⟩ | ⟨s'', t'', h3, h4, hok2⟩
      · exact .inl ⟨by simp [cRun, h1, h3], by simp [aRun, h2, h4]⟩
      · exact .inr ⟨s'', t'', by simp [cRun, h1, h3], by simp [aRun, h2, h4], hok2⟩

theorem keys_destroy {s : SpState} (hknd : (s.items.map (·.1)).Nodup) (k k' : String) :
    k' ∈ (cDestroyItem s k).items.map (·.1)
      ↔ (k' ≠ k ∧ k' ∈ s.items.map (·.1)) := by
  cases hl : lookupKey s.items k with
  | none =>
    have hkn : k ∉ s.items.map (·.1) := lookup_none_iff_keys.mp hl
    have hC : cDestroyItem s k = s := by simp [cDestroyItem, hl]
    rw [hC]
    constructor
    · intro h
      exact ⟨fun he => hkn (he ▸ h), h⟩
    · exact And.right
  | some pr =>
    obtain ⟨hsh, id⟩ := pr
    have hC : cDestroyItem s k
        = { items := removeKey s.items k, nextId := s.nextId,
            alive := s.alive.erase id } := by
      simp [cDestroyItem, hl]
    rw [hC]
    show k' ∈ (removeKey s.items k).map (·.1) ↔ _
    rw [removeKey_map_fst]
    exact List.Nodup.mem_erase_iff hknd

theorem keys_respawn {s : SpState} {t : List (String × Option Json)} (h : SpOk s t)
    (k k' : String) (v : Option Json) :
    k' ∈ (cMaybeRespawn s k v).items.map (·.1)
      ↔ (k' = k ∨ k' ∈ s.items.map (·.1)) := by
  have hknd : (s.items.map (·.1)).Nodup := h.2.2.2.2
  cases hl : lookupKey s.items k with
  | none =>
    have hC : cMaybeRespawn s k v = cSpawnRaw s k (hashOf v) := by
      simp [cMaybeRespawn, hl]
    rw [hC]
    show k' ∈ (s.items ++ [(k, hashOf v, s.nextId)]).map (·.1) ↔ _
    rw [List.map_append, List.mem_append]
    simp [or_comm]
  | some pr =>
    obtain ⟨hsh, id⟩ := pr
    have hkmem : k ∈ s.items.map (·.1) := by
      by_contra hkn
      rw [← lookup_none_iff_keys] at hkn
      rw [hkn] at hl
      cases hl
    by_cases heq : hashOf v = hsh
    · have hC : cMaybeRespawn s k v = s := by simp [cMaybeRespawn, hl, heq]
      rw [hC]
      constructor
      · exact .inr
      · intro hc
        rcases hc with rfl | hc
        · exact hkmem
        · exact hc
    · have hC : cMaybeRespawn s k v = cSpawnRaw (cDestroyItem s k) k (hashOf v) := by
        simp [cMaybeRespawn, hl, heq]
      rw [hC]
      show k' ∈ ((cDestroyItem s k).items
          ++ [(k, hashOf v, (cDestroyItem s k).nextId)]).map (·.1) ↔ _
      rw [List.map_append, List.mem_append, keys_destroy hknd k k']
      simp only [List.map_cons, List.map_nil, List.mem_singleton]
      by_cases hkk : k' = k
      · simp [hkk]
      · simp [hkk]

theorem keys_fold_respawn {s : SpState} {t : List (String × Option Json)} (h : SpOk s t)
    (m : List (String × Option Json)) (k' : String) :
    k' ∈ (m.foldl (fun acc kv => cMaybeRespawn acc kv.1 kv.2) s).items.map (·.1)
      ↔ (k' ∈ m.map (·.1) ∨ k' ∈ s.items.map (·.1)) := by
  induction m generalizing s t with
  | nil => simp
  | cons kv m' ih =>
    rw [List.foldl_cons, ih (ok_respawn h kv.1 kv.2), keys_respawn h kv.1 k' kv.2]
    simp only [List.map_cons, List.mem_cons]
    tauto

theorem keys_fold_destroy {s : SpState} {t : List (String × Option Json)} (h : SpOk s t)
    (L : List String) (k' : String) :
    k' ∈ (L.foldl cDestroyItem s).items.map (·.1)
      ↔ (k' ∈ s.items.map (·.1) ∧ k' ∉ L) := by
  induction L generalizing s t with
  | nil => simp
  | cons kk L' ih =>
    rw [List.foldl_cons, ih (ok_destroy h kk), keys_destroy h.2.2.2.2 kk k']
    simp only [List.mem_cons]
    tauto

/-- `resetItems(m)` converges the key set to exactly the keys of `m`. -/
theorem keys_reset {s : SpState} {t : List (String × Option Json)} (h : SpOk s t)
    (m : List (String × Option Json)) (k' : String) :
    k' ∈ (cReset s m).items.map (·.1) ↔ k' ∈ m.map (·.1) := by
  simp only [cReset]
  rw [keys_fold_destroy (ok_fold_respawn h m) _ k', keys_fold_respawn h m k']
  have hfilter : k' ∈ (s.items.map (·.1)).filter (fun k => !(m.any fun kv => kv.1 = k))
      ↔ (k' ∈ s.items.map (·.1) ∧ k' ∉ m.map (·.1)) := by
    rw [List.mem_filter]
    simp only [Bool.not_eq_true', List.any_eq_false, decide_eq_true_eq, List.mem_map]
    constructor
    · intro hx
      exact ⟨hx.1, fun ⟨p, hp, hpk⟩ => hx.2 p hp hpk⟩
    · intro hx
      exact ⟨hx.1, fun p hp hpk => hx.2 ⟨p, hp, hpk⟩⟩
  rw [hfilter]
  tauto

theorem destroyFold_empty :
    ∀ (items : List (String × String × Nat)) (nid : Nat),
      (items.map (·.2.2)).Nodup →
      List.foldl cDestroyItem
        { items := items, nextId := nid, alive := items.map (·.2.2) } (items.map (·.1))
        = { items := [], nextId := nid, alive := [] } := by
  intro items
  induction items with
  | nil => intro nid _; rfl
  | cons e rest ih =>
    intro nid hnd
    have hstep : cDestroyItem
        { items := e :: rest, nextId := nid, alive := (e :: rest).map (·.2.2) } e.1
        = { items := rest, nextId := nid, alive := rest.map (·.2.2) } := by
      simp [cDestroyItem, lookupKey, removeKey, List.erase_cons_head]
    have hnd' : (rest.map (·.2.2)).Nodup := (List.nodup_cons.mp (by simpa using hnd)).2
    simp only [List.map_cons, List.foldl_cons]
    rw [show cDestroyItem
        { items := e :: rest, nextId := nid, alive := e.2.2 :: rest.map (·.2.2) } e.1
        = { items := rest, nextId := nid, alive := rest.map (·.2.2) } from hstep]
    exact ih nid hnd'

theorem destroyAll_empty (s : SpState) (h1 : s.alive = s.items.map (·.2.2))
    (h2 : (s.items.map (·.2.2)).Nodup) :
    cDestroyAll s = { items := [], nextId := s.nextId, alive := [] } := by
  unfold cDestroyAll
  have : s = { items := s.items, nextId := s.nextId, alive := s.items.map (·.2.2) } := by
    cases s
    simp_all
  rw [this]
  exact destroyFold_empty s.items s.nextId h2

/-- Claim C4 (confirmed): after any finite sequence of
`spawnItem`/`destroyItem`/`maybeRespawnItem`/`resetItems` that completes
without error, the concrete Spawner's keys equal the keys of the abstract
reference map run over the same operations, the live children are exactly
the stored items' children, a further `resetItems(m)` would converge the key
set to exactly the keys of `m`, and `destroy()` leaves no live child. -/
theorem C4_spawner_refinement (ops : List SpOp) (s : SpState)
    (h : cRun spInit ops = .ok s) :
    ∃ t, aRun [] ops = .ok t ∧
      s.items.map (·.1) = t.map (·.1) ∧
      s.alive = s.items.map (·.2.2) ∧
      (∀ (m : List (String × Option Json)) (k : String),
        k ∈ (cReset s m).items.map (·.1) ↔ k ∈ m.map (·.1)) ∧
      cDestroyAll s = { items := [], nextId := s.nextId, alive := [] } := by
  have h0 : SpOk spInit []
    := ⟨List.Forall₂.nil, rfl, List.nodup_nil, by simp [spInit], List.nodup_nil⟩
  rcases ok_run h0 ops with ⟨h1, h2⟩ | ⟨s', t', h1, h2, hok⟩
  · rw [h] at h1
    cases h1
  · rw [h] at h1
    injection h1 with hs
    subst hs
    exact ⟨t', h2, rel_keys_eq hok.1, hok.2.1,
      fun m k => keys_reset hok m k,
      destroyAll_empty s hok.2.1 hok.2.2.1⟩

/-- Witness for C4: one spawn of key `"a"` with an `undefined` value. -/
theorem C4_spawner_refinement_witness :
    cRun spInit [.spawn "a" none]
        = .ok { items := [("a", zeroHash, 0)], nextId := 1, alive := [0] } ∧
    ∃ t, aRun [] [SpOp.spawn "a" none] = .ok t ∧
      ({ items := [("a", zeroHash, 0)], nextId := 1,
         alive := [0] } : SpState).items.map (·.1) = t.map (·.1) ∧
      ({ items := [("a", zeroHash, 0)], nextId := 1,
         alive := [0] } : SpState).alive
        = ({ items := [("a", zeroHash, 0)], nextId := 1,
             alive := [0] } : SpState).items.map (·.2.2) ∧
      (∀ (m : List (String × Option Json)) (k : String),
        k ∈ (cReset { items := [("a", zeroHash, 0)], nextId := 1,
                      alive := [0] } m).items.map (·.1) ↔ k ∈ m.map (·.1)) ∧
      cDestroyAll { items := [("a", zeroHash, 0)], nextId := 1, alive := [0] }
        = { items := [], nextId := 1, alive := [] } :=
  ⟨rfl, C4_spawner_refinement [.spawn "a" none] _ rfl⟩

/-! ## Claim C1 -/

theorem pushAt_map_fst (st : List (String × List String)) (i : Nat) (s : String) :
    (pushAt st i s).map (·.1) = st.map (·.1) := by
  induction st generalizing i with
  | nil => rfl
  | cons p t ih =>
    cases i with
    | zero => simp [pushAt]
    | succ i => simp [pushAt, ih]

theorem pushAt_length (st : List (String × List String)) (i : Nat) (s : String) :
    (pushAt st i s).length = st.length := by
  have := congrArg List.length (pushAt_map_fst st i s)
  simpa using this

theorem listAt_cons_succ (p : String × List String) (t : List (String × List String)) (i : Nat) :
    listAt (p :: t) (i + 1) = listAt t i := rfl

theorem listAt_pushAt_self (st : List (String × List String)) (i : Nat) (s : String)
    (h : i < st.length) : listAt (pushAt st i s) i = listAt st i ++ [s] := by
  induction st generalizing i with
  | nil => simp at h
  | cons p t ih =>
    cases i with
    | zero => simp [pushAt, listAt]
    | succ i =>
      have hi : i < t.length := by simpa using h
      simpa [pushAt, listAt_cons_succ] using ih i hi

theorem listAt_pushAt_ne (st : List (String × List String)) (i j : Nat) (s : String)
    (h : j ≠ i) : listAt (pushAt st i s) j = listAt st j := by
  induction st generalizing i j with
  | nil => rfl
  | cons p t ih =>
    cases i with
    | zero =>
      cases j with
      | zero => exact absurd rfl h
      | succ j => simp [pushAt, listAt_cons_succ]
    | succ i =>
      cases j with
      | zero => simp [pushAt, listAt]
      | succ j =>
        simpa [pushAt, listAt_cons_succ] using ih i j (fun hx => h (by omega))

theorem lenAt_pushAt_ne (st : List (String × List String)) (i j : Nat) (s : String)
    (h : j ≠ i) : lenAt (pushAt st i s) j = lenAt st j := by
  unfold lenAt
  rw [listAt_pushAt_ne st i j s h]

theorem sortedHead_min (st : List (String × List String)) (cands : List Nat) (i : Nat)
    (rest : List Nat)
    (h : List.insertionSort (fun a b => lenAt st a ≤ lenAt st b) cands = i :: rest) :
    ∀ j ∈ cands, lenAt st i ≤ lenAt st j := by
  haveI : IsTotal Nat (fun a b => lenAt st a ≤ lenAt st b) := ⟨fun a b => Nat.le_total _ _⟩
  haveI : IsTrans Nat (fun a b => lenAt st a ≤ lenAt st b) :=
    ⟨fun a b c hab hbc => le_trans hab hbc⟩
  have hs := List.sorted_insertionSort (fun a b => lenAt st a ≤ lenAt st b) cands
  rw [h] at hs
  intro j hj
  have hj' : j ∈ i :: rest := by
    rw [← h]
    exact ((List.perm_insertionSort _ cands).mem_iff).mpr hj
  rcases List.mem_cons.mp hj' with rfl | hjr
  · exact le_refl _
  · exact List.rel_of_sorted_cons hs j hjr

theorem innerLoop_map_fst (shard : String) :
    ∀ (fuel : Nat) (st : List (String × List String)) (cands : List Nat),
      (innerLoop shard st cands fuel).map (·.1) = st.map (·.1) := by
  intro fuel
  induction fuel with
  | zero => intro st cands; rfl
  | succ fuel ih =>
    intro st cands
    rw [innerLoop]
    cases List.insertionSort (fun a b => lenAt st a ≤ lenAt st b) cands with
    | nil => rfl
    | cons i rest => rw [ih, pushAt_map_fst]

theorem innerLoop_length (shard : String) (fuel : Nat) (st : List (String × List String))
    (cands : List Nat) : (innerLoop shard st cands fuel).length = st.length := by
  have := congrArg List.length (innerLoop_map_fst shard fuel st cands)
  simpa using this

/-- The inner loop of `distribute`, decomposed: it appends the shard to the
lists of a duplicate-free selection `S` of `fuel` candidates, leaves every
other list alone, and the selection is length-minimal among the candidates.
-/
theorem innerLoop_decomp (shard : String) :
    ∀ (fuel : Nat) (st : List (String × List String)) (cands : List Nat),
      cands.Nodup → (∀ j ∈ cands, j < st.length) → fuel ≤ cands.length →
      ∃ S : List Nat, S.Nodup ∧ (∀ i ∈ S, i ∈ cands) ∧ S.length = fuel ∧
        (∀ i ∈ S, listAt (innerLoop shard st cands fuel) i = listAt st i ++ [shard]) ∧
        (∀ i, i ∉ S → listAt (innerLoop shard st cands fuel) i = listAt st i) ∧
        (∀ i ∈ S, ∀ j ∈ cands, j ∉ S → lenAt st i ≤ lenAt st j) := by
  intro fuel
  induction fuel with
  | zero =>
    intro st cands _ _ _
    exact ⟨[], List.nodup_nil, by simp, rfl, by simp, fun i _ => rfl, by simp⟩
  | succ fuel ih =>
    intro st cands hnd hvalid hle
    cases hsort : List.insertionSort (fun a b => lenAt st a ≤ lenAt st b) cands with
    | nil =>
      exfalso
      have hp := List.perm_insertionSort (fun a b => lenAt st a ≤ lenAt st b) cands
      rw [hsort] at hp
      have hc : cands = [] := hp.symm.eq_nil
      rw [hc] at hle
      simp at hle
    | cons i rest =>
      have hstep : innerLoop shard st cands (fuel + 1)
          = innerLoop shard (pushAt st i shard) rest fuel := by
        rw [innerLoop, hsort]
      have hperm : (i :: rest).Perm cands := by
        rw [← hsort]
        exact List.perm_insertionSort _ cands
      have hiC : i ∈ cands := hperm.subset (List.mem_cons_self _ _)
      have hndir : (i :: rest).Nodup := (hperm.nodup_iff).mpr hnd
      have hirest : i ∉ rest := (List.nodup_cons.mp hndir).1
      have hrestnd : rest.Nodup := (List.nodup_cons.mp hndir).2
      have hsubr : ∀ j ∈ rest, j ∈ cands := fun j hj =>
        hperm.subset (List.mem_cons_of_mem _ hj)
      have hvalid' : ∀ j ∈ rest, j < (pushAt st i shard).length := by
        rw [pushAt_length]
        exact fun j hj => hvalid j (hsubr j hj)
      have hlen' : fuel ≤ rest.length := by
        have hL := hperm.length_eq
        simp at hL
        omega
      obtain ⟨S', hS'nd, hS'sub, hS'len, hS'push, hS'other, hS'min⟩ :=
        ih (pushAt st i shard) rest hrestnd hvalid' hlen'
      have hS'ne_i : ∀ a ∈ S', a ≠ i := fun a ha hx => hirest (hx ▸ hS'sub a ha)
      refine ⟨i :: S', ?_, ?_, ?_, ?_, ?_, ?_⟩
      · exact List.nodup_cons.mpr ⟨fun hi => hirest (hS'sub i hi), hS'nd⟩
      · intro a ha
        rcases List.mem_cons.mp ha with rfl | haS
        · exact hiC
        · exact hsubr a (hS'sub a haS)
      · simp [hS'len]
      · intro a ha
        rw [hstep]
        rcases List.mem_cons.mp ha with rfl | haS
        · rw [hS'other a (fun hx => hirest (hS'sub a hx))]
          exact listAt_pushAt_self st a shard (hvalid a hiC)
        · rw [hS'push a haS, listAt_pushAt_ne st i a shard (hS'ne_i a haS)]
      · intro a haNot
        rw [hstep]
        have haS' : a ∉ S' := fun hx => haNot (List.mem_cons_of_mem _ hx)
        have hai : a ≠ i := fun hx => haNot (hx ▸ List.mem_cons_self _ _)
        rw [hS'other a haS', listAt_pushAt_ne st i a shard hai]
      · intro a ha j hj hjNot
        have hji : j ≠ i := fun hx => hjNot (hx ▸ List.mem_cons_self _ _)
        have hjS' : j ∉ S' := fun hx => hjNot (List.mem_cons_of_mem _ hx)
        have hjrest : j ∈ rest := by
          have hj2 : j ∈ i :: rest := hperm.symm.subset hj
          rcases List.mem_cons.mp hj2 with rfl | hjr
          · exact absurd rfl hji
          · exact hjr
        rcases List.mem_cons.mp ha with rfl | haS
        · exact sortedHead_min st cands a rest hsort j hj
        · have h1 := hS'min a haS j hjrest hjS'
          rwa [lenAt_pushAt_ne st i a shard (hS'ne_i a haS),
               lenAt_pushAt_ne st i j shard hji] at h1

theorem forall_index_snd (st : List (String × List String)) (Q : List String → Prop)
    (h : ∀ p ∈ st, Q p.2) : ∀ i < st.length, Q (listAt st i) := by
  induction st with
  | nil => intro i hi; simp at hi
  | cons p t ih =>
    intro i hi
    cases i with
    | zero => exact h p (List.mem_cons_self _ _)
    | succ i =>
      rw [listAt_cons_succ]
      exact ih (fun q hq => h q (List.mem_cons_of_mem _ hq)) i (by simpa using hi)

theorem forall_mem_snd (st : List (String × List String)) (Q : List String → Prop)
    (h : ∀ i < st.length, Q (listAt st i)) : ∀ p ∈ st, Q p.2 := by
  induction st with
  | nil => intro p hp; cases hp
  | cons e t ih =>
    intro p hp
    rcases List.mem_cons.mp hp with rfl | hpt
    · exact h 0 (by simp)
    · refine ih (fun i hi => ?_) p hpt
      have := h (i + 1) (by simpa using Nat.succ_lt_succ hi)
      rwa [listAt_cons_succ] at this

theorem cands_full (st : List (String × List String)) (shard : String)
    (h : ∀ i < st.length, shard ∉ listAt st i) :
    ((List.range st.length).filter fun i => !((listAt st i).contains shard))
      = List.range st.length := by
  apply List.filter_eq_self.mpr
  intro i hi
  rw [List.mem_range] at hi
  simp [h i hi]

theorem filter_mem_length_eq (st : List (String × List String)) (s : String) :
    (st.filter fun p => decide (s ∈ p.2)).length
      = ((List.range st.length).filter fun i => decide (s ∈ listAt st i)).length := by
  induction st with
  | nil => rfl
  | cons p t ih =>
    rw [List.length_cons, List.range_succ_eq_map, List.filter_cons, List.filter_cons,
      List.filter_map]
    have hcomp : ((fun i => decide (s ∈ listAt (p :: t) i)) ∘ Nat.succ)
        = fun i => decide (s ∈ listAt t i) := by
      funext i
      simp [Function.comp, listAt_cons_succ]
    rw [hcomp]
    by_cases hm : s ∈ p.2
    · have hm0 : s ∈ listAt (p :: t) 0 := hm
      simp [hm, hm0, ih]
    · have hm0 : s ∉ listAt (p :: t) 0 := hm
      simp [hm, hm0, ih]

theorem filter_range_mem_length (S : List Nat) (n : Nat) (hnd : S.Nodup)
    (hsub : ∀ i ∈ S, i < n) :
    ((List.range n).filter fun i => decide (i ∈ S)).length = S.length := by
  have hperm : ((List.range n).filter fun i => decide (i ∈ S)).Perm S := by
    rw [List.perm_ext_iff_of_nodup ((List.nodup_range n).filter _) hnd]
    intro a
    simp only [List.mem_filter, List.mem_range, decide_eq_true_eq]
    exact ⟨fun h => h.2, fun h => ⟨hsub a h, h⟩⟩
  exact hperm.length_eq

theorem distStep_facts (r : Nat) (st : List (String × List String)) (shard : String)
    (hfresh : ∀ i < st.length, shard ∉ listAt st i) :
    (distStep r st shard).map (·.1) = st.map (·.1) ∧
    ∃ S : List Nat, S.Nodup ∧ (∀ i ∈ S, i < st.length) ∧ S.length = min r st.length ∧
      (∀ i ∈ S, listAt (distStep r st shard) i = listAt st i ++ [shard]) ∧
      (∀ i, i ∉ S → listAt (distStep r st shard) i = listAt st i) ∧
      (∀ i ∈ S, ∀ j < st.length, j ∉ S → lenAt st i ≤ lenAt st j) := by
  have hcands : ((List.range st.length).filter fun i => !((listAt st i).contains shard))
      = List.range st.length := cands_full st shard hfresh
  have hd : distStep r st shard
      = innerLoop shard st (List.range st.length) (min r st.length) := by
    simp only [distStep]
    rw [hcands, List.length_range]
  rw [hd]
  refine ⟨innerLoop_map_fst shard _ st _, ?_⟩
  obtain ⟨S, h1, h2, h3, h4, h5, h6⟩ :=
    innerLoop_decomp shard (min r st.length) st (List.range st.length)
      (List.nodup_range st.length) (fun j hj => List.mem_range.mp hj)
      (by rw [List.length_range]; omega)
  exact ⟨S, h1, fun i hi => List.mem_range.mp (h2 i hi), h3, h4, h5,
    fun i hi j hj hjn => h6 i hi j (List.mem_range.mpr hj) hjn⟩

theorem spread_step (st st' : List (String × List String)) (S : List Nat) (m : Nat)
    (shard : String) (hlen : st'.length = st.length)
    (hspread : ∀ i < st.length, lenAt st i = m ∨ lenAt st i = m + 1)
    (hS : ∀ i ∈ S, listAt st' i = listAt st i ++ [shard])
    (hO : ∀ i, i ∉ S → listAt st' i = listAt st i)
    (hmin : ∀ i ∈ S, ∀ j < st.length, j ∉ S → lenAt st i ≤ lenAt st j) :
    ∃ m', ∀ i < st'.length, lenAt st' i = m' ∨ lenAt st' i = m' + 1 := by
  by_cases hex : ∃ j, j < st.length ∧ j ∉ S ∧ lenAt st j = m
  · obtain ⟨j0, hj0n, hj0S, hj0m⟩ := hex
    refine ⟨m, ?_⟩
    intro i hi
    rw [hlen] at hi
    by_cases hiS : i ∈ S
    · have hle : lenAt st i ≤ m := hj0m ▸ hmin i hiS j0 hj0n hj0S
      have hsp := hspread i hi
      have hpush : lenAt st' i = lenAt st i + 1 := by
        unfold lenAt
        rw [hS i hiS]
        simp
      omega
    · have hkeep : lenAt st' i = lenAt st i := by
        unfold lenAt
        rw [hO i hiS]
      have hsp := hspread i hi
      omega
  · push_neg at hex
    refine ⟨m + 1, ?_⟩
    intro i hi
    rw [hlen] at hi
    by_cases hiS : i ∈ S
    · have hpush : lenAt st' i = lenAt st i + 1 := by
        unfold lenAt
        rw [hS i hiS]
        simp
      have hsp := hspread i hi
      omega
    · have hkeep : lenAt st' i = lenAt st i := by
        unfold lenAt
        rw [hO i hiS]
      have h1 := hspread i hi
      have h2 := hex i hi hiS
      omega

theorem distStep_inv (r : Nat) (instances processed : List String)
    (st : List (String × List String)) (shard : String)
    (hinv : DistInv r instances processed st) (hshard : shard ∉ processed) :
    DistInv r instances (processed ++ [shard]) (distStep r st shard) := by
  obtain ⟨hkeys, hnodup, hsubset, hcount, m, hspread⟩ := hinv
  have hfreshm : ∀ p ∈ st, shard ∉ p.2 := fun p hp hx => hshard (hsubset p hp shard hx)
  have hfresh : ∀ i < st.length, shard ∉ listAt st i :=
    forall_index_snd st (fun l => shard ∉ l) hfreshm
  obtain ⟨hmap, S, hSnd, hSlt, hSlen, hSpush, hSother, hSmin⟩ :=
    distStep_facts r st shard hfresh
  have hlen' : (distStep r st shard).length = st.length := by
    have := congrArg List.length hmap
    simpa using this
  have hn : st.length = instances.length := by
    have := congrArg List.length hkeys
    simpa using this
  refine ⟨by rw [hmap, hkeys], ?_, ?_, ?_, ?_⟩
  · apply forall_mem_snd
    intro i hi
    rw [hlen'] at hi
    by_cases hiS : i ∈ S
    · rw [hSpush i hiS]
      have hd1 : (listAt st i).Nodup := forall_index_snd st (fun l => l.Nodup) hnodup i hi
      have hd2 : shard ∉ listAt st i := hfresh i hi
      refine List.Nodup.append hd1 (List.nodup_singleton _) ?_
      intro a ha hb
      rw [List.mem_singleton] at hb
      exact hd2 (hb ▸ ha)
    · rw [hSother i hiS]
      exact forall_index_snd st (fun l => l.Nodup) hnodup i hi
  · apply forall_mem_snd (distStep r st shard)
      (fun l => ∀ x ∈ l, x ∈ processed ++ [shard])
    intro i hi
    rw [hlen'] at hi
    intro x hx
    by_cases hiS : i ∈ S
    · rw [hSpush i hiS] at hx
      rcases List.mem_append.mp hx with hx | hx
      · exact List.mem_append.mpr (.inl
          (forall_index_snd st (fun l => ∀ x ∈ l, x ∈ processed) hsubset i hi x hx))
      · rw [List.mem_singleton] at hx
        subst hx
        exact List.mem_append.mpr (.inr (List.mem_singleton.mpr rfl))
    · rw [hSother i hiS] at hx
      exact List.mem_append.mpr (.inl
        (forall_index_snd st (fun l => ∀ x ∈ l, x ∈ processed) hsubset i hi x hx))
  · intro s hs
    rw [filter_mem_length_eq, hlen']
    rcases List.mem_append.mp hs with hsp | hss
    · have hsne : s ≠ shard := fun hx => hshard (hx ▸ hsp)
      have hcongr : ∀ i ∈ List.range st.length,
          decide (s ∈ listAt (distStep r st shard) i) = decide (s ∈ listAt st i) := by
        intro i hi
        rw [List.mem_range] at hi
        by_cases hiS : i ∈ S
        · rw [hSpush i hiS]
          simp [List.mem_append, hsne]
        · rw [hSother i hiS]
      rw [List.filter_congr hcongr, ← filter_mem_length_eq]
      exact hcount s hsp
    · rw [List.mem_singleton] at hss
      subst hss
      have hcongr : ∀ i ∈ List.range st.length,
          decide (s ∈ listAt (distStep r st s) i) = decide (i ∈ S) := by
        intro i hi
        rw [List.mem_range] at hi
        by_cases hiS : i ∈ S
        · rw [hSpush i hiS]
          simp [List.mem_append, hiS]
        · rw [hSother i hiS]
          simp [hiS, hfresh i hi]
      rw [List.filter_congr hcongr, filter_range_mem_length S st.length hSnd hSlt,
        hSlen, hn]
  · obtain ⟨m', hsp'⟩ := spread_step st (distStep r st shard) S m shard hlen'
      (forall_index_snd st (fun l => l.length = m ∨ l.length = m + 1) hspread)
      hSpush hSother hSmin
    exact ⟨m', forall_mem_snd (distStep r st shard)
      (fun l => l.length = m' ∨ l.length = m' + 1) hsp'⟩

theorem distribute_fold_inv (r : Nat) (instances : List String) :
    ∀ (remaining processed : List String) (st : List (String × List String)),
      (processed ++ remaining).Nodup →
      DistInv r instances processed st →
      DistInv r instances (processed ++ remaining) (remaining.foldl (distStep r) st) := by
  intro remaining
  induction remaining with
  | nil =>
    intro processed st _ hinv
    simpa using hinv
  | cons shard rest ih =>
    intro processed st hnd hinv
    have hshard : shard ∉ processed := by
      intro hmem
      exact (List.nodup_append.mp hnd).2.2 hmem (List.mem_cons_self _ _)
    have hstep := distStep_inv r instances processed st shard hinv hshard
    have hnd' : ((processed ++ [shard]) ++ rest).Nodup := by
      rwa [List.append_assoc, List.singleton_append]
    have hres := ih (processed ++ [shard]) (distStep r st shard) hnd' hstep
    rw [List.append_assoc, List.singleton_append] at hres
    exact hres

theorem lastVal_not_mem {l : List (String × α)} {k : String} (acc : Option α)
    (h : k ∉ l.map (·.1)) :
    l.foldl (fun acc p => if p.1 = k then some p.2 else acc) acc = acc := by
  induction l generalizing acc with
  | nil => rfl
  | cons e t ih =>
    simp only [List.map_cons, List.mem_cons, not_or] at h
    rw [List.foldl_cons, if_neg (fun hx => h.1 hx.symm)]
    exact ih _ h.2

theorem lastVal_cons_head {e : String × α} {t : List (String × α)}
    (h : e.1 ∉ t.map (·.1)) : lastVal e.1 (e :: t) = some e.2 := by
  unfold lastVal
  rw [List.foldl_cons, if_pos rfl]
  exact lastVal_not_mem _ h

theorem lastVal_cons_ne {e : String × α} {t : List (String × α)} {k : String}
    (h : ¬ e.1 = k) : lastVal k (e :: t) = lastVal k t := by
  unfold lastVal
  rw [List.foldl_cons, if_neg h]

theorem firstDedup_nodup_id (ks : List String) :
    ∀ seen : List String, ks.Nodup → (∀ k ∈ ks, k ∉ seen) → firstDedup seen ks = ks := by
  induction ks with
  | nil => intro seen _ _; rfl
  | cons k t ih =>
    intro seen hnd hdisj
    have hc : seen.contains k = false := by
      have := hdisj k (List.mem_cons_self _ _)
      simpa using this
    rw [firstDedup, hc]
    simp only [Bool.false_eq_true, if_false]
    rw [ih (k :: seen) (List.nodup_cons.mp hnd).2 ?_]
    intro k' hk' hmem
    rcases List.mem_cons.mp hmem with rfl | hmem
    · exact (List.nodup_cons.mp hnd).1 hk'
    · exact hdisj k' (List.mem_cons_of_mem _ hk') hmem

theorem filterMapCongr {l : List α} {f g : α → Option β}
    (h : ∀ a ∈ l, f a = g a) : l.filterMap f = l.filterMap g := by
  induction l with
  | nil => rfl
  | cons a t ih =>
    rw [List.filterMap_cons, List.filterMap_cons, h a (List.mem_cons_self _ _),
      ih (fun a ha => h a (List.mem_cons_of_mem _ ha))]

theorem filterMap_lastVal_id :
    ∀ l : List (String × α), (l.map (·.1)).Nodup →
      (l.map (·.1)).filterMap (fun k => (lastVal k l).map ((k, ·))) = l := by
  intro l
  induction l with
  | nil => intro _; rfl
  | cons e t ih =>
    intro hnd
    have h1 : e.1 ∉ t.map (·.1) := (List.nodup_cons.mp (by simpa using hnd)).1
    have h2 : (t.map (·.1)).Nodup := (List.nodup_cons.mp (by simpa using hnd)).2
    rw [List.map_cons, List.filterMap_cons, lastVal_cons_head h1]
    have hcongr : ∀ k ∈ t.map (·.1),
        (lastVal k (e :: t)).map ((k, ·)) = (lastVal k t).map ((k, ·)) := by
      intro k hk
      rw [lastVal_cons_ne (fun hx => h1 (hx ▸ hk))]
    show (e.1, e.2) :: (t.map (·.1)).filterMap (fun k => (lastVal k (e :: t)).map ((k, ·)))
      = e :: t
    rw [filterMapCongr hcongr, ih h2]

theorem jsRecord_nodup_id (l : List (String × α)) (h : (l.map (·.1)).Nodup) :
    jsRecord l = l := by
  unfold jsRecord
  rw [firstDedup_nodup_id (l.map (·.1)) [] h (by simp)]
  exact filterMap_lastVal_id l h

/-- Counterexample to claim C1 as stated: with the duplicate peer-id list
`["a", "a"]`, one shard and `r = 2`, the returned record collapses to a
single entry, so the shard is assigned to 1 distinct peer of the mapping
while `min(r, |peers|) = 2`. -/
theorem C1_distribute_counterexample :
    ((jsRecord (distribute ["a", "a"] ["s"] 2)).filter fun p => decide ("s" ∈ p.2)).length = 1
      ∧ min 2 (["a", "a"] : List String).length = 2 := by decide

/-- Claim C1 (corrected): for every non-empty list of *distinct* peer ids,
distinct shard names and `r ≥ 1`, the record returned by `distribute` has
(a) duplicate-free peer lists, (b) drawn from the input shards, (c) every
shard on exactly `min r |peers|` distinct peers, and (d) — stated under the
claim's divisibility proviso, though it holds unconditionally — peer list
lengths that differ by at most 1. -/
theorem C1_distribute_amended (instances shards : List String) (r : Nat)
    (h0 : instances ≠ []) (h1 : instances.Nodup) (h2 : shards.Nodup) (h3 : 1 ≤ r) :
    (∀ p ∈ jsRecord (distribute instances shards r), p.2.Nodup) ∧
    (∀ p ∈ jsRecord (distribute instances shards r), ∀ s ∈ p.2, s ∈ shards) ∧
    (∀ s ∈ shards,
      ((jsRecord (distribute instances shards r)).filter fun p => decide (s ∈ p.2)).length
        = min r instances.length) ∧
    (r * shards.length % instances.length = 0 →
      ∀ p ∈ jsRecord (distribute instances shards r),
        ∀ q ∈ jsRecord (distribute instances shards r),
          p.2.length ≤ q.2.length + 1) := by
  have hkeys0 : ∀ l : List String, (l.map fun k => (k, ([] : List String))).map (·.1) = l := by
    intro l
    induction l with
    | nil => rfl
    | cons a t ih => simp [ih]
  have hinit : DistInv r instances [] (instances.map fun k => (k, ([] : List String))) := by
    refine ⟨hkeys0 instances, ?_, ?_, ?_, 0, ?_⟩
    · intro p hp
      obtain ⟨k, _, rfl⟩ := List.mem_map.mp hp
      exact List.nodup_nil
    · intro p hp x hx
      obtain ⟨k, _, rfl⟩ := List.mem_map.mp hp
      cases hx
    · intro s hs
      cases hs
    · intro p hp
      obtain ⟨k, _, rfl⟩ := List.mem_map.mp hp
      exact .inl rfl
  have hD : distribute instances shards r
      = shards.foldl (distStep r) (instances.map fun k => (k, ([] : List String))) := rfl
  have hfold := distribute_fold_inv r instances shards []
    (instances.map fun k => (k, ([] : List String))) (by simpa using h2) hinit
  rw [List.nil_append] at hfold
  rw [← hD] at hfold
  obtain ⟨hkeys, hnodup, hsubset, hcount, m, hspread⟩ := hfold
  have hrec : jsRecord (distribute instances shards r) = distribute instances shards r :=
    jsRecord_nodup_id _ (by rw [hkeys]; exact h1)
  rw [hrec]
  refine ⟨hnodup, hsubset, hcount, ?_⟩
  intro _ p hp q hq
  have hP := hspread p hp
  have hQ := hspread q hq
  omega

/-- Witness for C1: three distinct peers, two distinct shards, two replicas.
-/
theorem C1_distribute_amended_witness :
    (["x", "y", "z"] : List String) ≠ [] ∧
    (∀ s ∈ (["a", "b"] : List String),
      ((jsRecord (distribute ["x", "y", "z"] ["a", "b"] 2)).filter
          fun p => decide (s ∈ p.2)).length
        = min 2 (["x", "y", "z"] : List String).length) :=
  ⟨by decide,
    (C1_distribute_amended ["x", "y", "z"] ["a", "b"] 2 (by decide) (by decide)
      (by decide) (by decide)).2.2.1⟩

end Overnats
